import Mathlib

/-!
# console: the Incr and User handlers of `handlers/handlers.go`

Shallow embedding of the two stateful HTTP handlers and of the parts of
`encoding/json`, `go-redis` and `gin` they call.

* Go `int` is the 64-bit two's-complement integer of the target platform: values are
  `Int` and every addition of the program goes through `wrap64`.
* Go strings are modelled as `List Char` (Redis payloads) or `String` (keys, names);
  byte lengths are recomputed through the UTF-8 width of each character.
* The Redis server and the Postgres connection are the environment: what they answer
  to each call is an argument of the handler.
* Time does not pass: a key that was set stays until it is set again. The expiration
  handed to `Set` is recorded, its elapsing is not modelled.
-/

namespace Console

/-! ## Go `int` -/

/-- Constant `math.MinInt64`. -/
def minInt64 : Int := -9223372036854775808

/-- Constant `math.MaxInt64`. -/
def maxInt64 : Int := 9223372036854775807

/-- The values a Go `int` can hold. -/
def inInt64 (i : Int) : Prop := minInt64 ≤ i ∧ i ≤ maxInt64

instance (i : Int) : Decidable (inInt64 i) := by
  unfold inInt64; exact inferInstance

/-- Two's-complement reduction of a mathematical integer to 64 bits. -/
def wrap64 (i : Int) : Int := (i + 9223372036854775808) % 18446744073709551616 - 9223372036854775808

/-- Go's `a + b` on `int`. -/
def add64 (a b : Int) : Int := wrap64 (a + b)

/-! ## `encoding/json` for `struct { Value int "json:value" }` -/

/-- The anonymous struct `cache` of `Incr`. -/
structure Cache where
  Value : Int
deriving DecidableEq, Repr

/-- Errors seen by `Incr`. -/
inductive Err
  | Nil                       -- redis.Nil
  | TxFailedErr               -- redis.TxFailedErr
  | Redis (msg : String)      -- any other error of the client or the server
  | SyntaxError               -- *json.SyntaxError
  | UnmarshalTypeError        -- *json.UnmarshalTypeError
deriving DecidableEq, Repr

/-- Decimal digit of a number below ten. -/
def digitChar (d : Nat) : Char := Char.ofNat (48 + d)

/-- Most significant digit first; `fuel` bounds the number of digits. -/
def formatBits : Nat → Nat → List Char
  | 0, _ => []
  | fuel + 1, n => if n < 10 then [digitChar n] else formatBits fuel (n / 10) ++ [digitChar (n % 10)]

/-- Function `strconv.FormatInt(i, 10)`. -/
def FormatInt (i : Int) : List Char :=
  match i with
  | Int.ofNat n => formatBits (n + 1) n
  | Int.negSucc n => '-' :: formatBits (n + 2) (n + 1)

/-- Function `json.Marshal(cache)`: the struct has one exported int field tagged `value`. -/
def Marshal (c : Cache) : List Char :=
  "\x7b\"value\":".toList ++ FormatInt c.Value ++ ['}']

/-- Parsed JSON text. Numbers keep their literal, as the decoder converts them late. -/
inductive JSON
  | null
  | bool (b : Bool)
  | num (lit : List Char)
  | str (s : List Char)
  | arr (xs : List JSON)
  | obj (ms : List (List Char × JSON))

/-- Function `isSpace` of the scanner. -/
def isSpace (c : Char) : Bool := c = ' ' || c = '\t' || c = '\r' || c = '\n'

def isDigit (c : Char) : Bool := 48 ≤ c.toNat && c.toNat ≤ 57

def skipSpace : List Char → List Char
  | [] => []
  | c :: cs => if isSpace c then skipSpace cs else c :: cs

/-- Longest prefix of decimal digits, and what follows it. -/
def digits : List Char → List Char × List Char
  | [] => ([], [])
  | c :: cs => if isDigit c then ((digits cs).1.cons c, (digits cs).2) else ([], c :: cs)

/-- Fraction part of a number literal: nothing, or a dot and at least one digit. -/
def scanFrac (cs : List Char) : Option (List Char × List Char) :=
  match cs with
  | '.' :: t =>
    match digits t with
    | ([], _) => none
    | (ds, r) => some ('.' :: ds, r)
  | _ => some ([], cs)

/-- Exponent part of a number literal. -/
def scanExp (cs : List Char) : Option (List Char × List Char) :=
  match cs with
  | [] => some ([], [])
  | e :: t =>
    if e = 'e' ∨ e = 'E' then
      match t with
      | [] => none
      | s :: u =>
        if s = '+' ∨ s = '-' then
          match digits u with
          | ([], _) => none
          | (ds, r) => some (e :: s :: ds, r)
        else
          match digits t with
          | ([], _) => none
          | (ds, r) => some (e :: ds, r)
    else some ([], cs)

/-- Integer part of a number literal, without sign: `0`, or a non-zero digit and digits. -/
def scanInt (cs : List Char) : Option (List Char × List Char) :=
  match cs with
  | [] => none
  | c :: t =>
    if c = '0' then some (['0'], t)
    else if isDigit c then some (c :: (digits t).1, (digits t).2)
    else none

/-- JSON number literal at the head of the input. -/
def scanNumber (cs : List Char) : Option (List Char × List Char) :=
  let body (sign : List Char) (t : List Char) : Option (List Char × List Char) :=
    match scanInt t with
    | none => none
    | some (i, r) =>
      match scanFrac r with
      | none => none
      | some (f, r) =>
        match scanExp r with
        | none => none
        | some (e, r) => some (sign ++ i ++ f ++ e, r)
  match cs with
  | '-' :: t => body ['-'] t
  | _ => body [] cs

def hexVal (c : Char) : Option Nat :=
  let n := c.toNat
  if 48 ≤ n ∧ n ≤ 57 then some (n - 48)
  else if 97 ≤ n ∧ n ≤ 102 then some (n - 87)
  else if 65 ≤ n ∧ n ≤ 70 then some (n - 55)
  else none

/-- Function `getu4` on the four characters after a backslash and `u`. -/
def getu4 (a b c d : Char) : Option Nat :=
  match hexVal a, hexVal b, hexVal c, hexVal d with
  | some w, some x, some y, some z => some (((w * 16 + x) * 16 + y) * 16 + z)
  | _, _, _, _ => none

/-- Scanner over a string literal after its opening quote: the raw text up to the
closing quote, and the rest. Control characters and bad escapes are syntax errors. -/
def scanString : List Char → Option (List Char × List Char)
  | [] => none
  | '"' :: t => some ([], t)
  | '\\' :: 'u' :: a :: b :: c :: d :: t =>
    match getu4 a b c d with
    | none => none
    | some _ => (scanString t).map fun p => ('\\' :: 'u' :: a :: b :: c :: d :: p.1, p.2)
  | '\\' :: e :: t =>
    if e = '"' ∨ e = '\\' ∨ e = '/' ∨ e = 'b' ∨ e = 'f' ∨ e = 'n' ∨ e = 'r' ∨ e = 't' then
      (scanString t).map fun p => ('\\' :: e :: p.1, p.2)
    else none
  | c :: t =>
    if c.toNat < 32 ∨ c = '\\' then none
    else (scanString t).map fun p => (c :: p.1, p.2)

/-- Escape letters other than `u`. -/
def unescape (e : Char) : Char :=
  if e = 'b' then Char.ofNat 8
  else if e = 'f' then Char.ofNat 12
  else if e = 'n' then '\n'
  else if e = 'r' then '\r'
  else if e = 't' then '\t'
  else e

/-- Function `utf16.DecodeRune`, applied to a high and a low surrogate. -/
def decodeSurrogates (hi lo : Nat) : Option Char :=
  if 0xd800 ≤ hi ∧ hi < 0xdc00 ∧ 0xdc00 ≤ lo ∧ lo < 0xe000 then
    some (Char.ofNat ((hi - 0xd800) * 1024 + (lo - 0xdc00) + 0x10000))
  else none

/-- Replacement character emitted for a surrogate that found no partner. -/
def flushSurrogate (pending : Option Nat) : List Char :=
  match pending with
  | none => []
  | some _ => [Char.ofNat 0xfffd]

/-- Function `unquote` on the raw text of a valid string literal, reading left to right
with the surrogate escape that still waits for its low half: escapes are replaced,
surrogate pairs are joined and a lone surrogate becomes U+FFFD. -/
def unquoteFrom : Option Nat → List Char → List Char
  | pending, [] => flushSurrogate pending
  | pending, '\\' :: 'u' :: a :: b :: c :: d :: t =>
    match getu4 a b c d with
    | none => flushSurrogate pending
    | some rr =>
      match pending.bind fun hi => decodeSurrogates hi rr with
      | some r => r :: unquoteFrom none t
      | none =>
        if 0xd800 ≤ rr ∧ rr < 0xe000 then flushSurrogate pending ++ unquoteFrom (some rr) t
        else flushSurrogate pending ++ Char.ofNat rr :: unquoteFrom none t
  | pending, '\\' :: e :: t => flushSurrogate pending ++ unescape e :: unquoteFrom none t
  | pending, c :: t => flushSurrogate pending ++ c :: unquoteFrom none t

/-- Function `unquote`. -/
def unquote (raw : List Char) : List Char := unquoteFrom none raw

/-- Constant `maxNestingDepth` of the scanner. -/
def maxNestingDepth : Nat := 10000

/-- Keyword literal `true`, `false` or `null` at the head of the input. -/
def scanKeyword (cs : List Char) : Option (JSON × List Char) :=
  match cs with
  | 't' :: 'r' :: 'u' :: 'e' :: r => some (.bool true, r)
  | 'f' :: 'a' :: 'l' :: 's' :: 'e' :: r => some (.bool false, r)
  | 'n' :: 'u' :: 'l' :: 'l' :: r => some (.null, r)
  | _ => none

mutual
/-- One JSON value at the head of the input (no leading space), inside `depth` open
arrays and objects. A nested call has consumed input, except that a list of elements
starts where its first value does: a fuel above twice the length of the input is
never exhausted (`parse_fuel`). -/
def parseValue : Nat → Nat → List Char → Option (JSON × List Char)
  | 0, _, _ => none
  | fuel + 1, depth, cs =>
    match cs with
    | [] => none
    | c :: t =>
      if c = '-' ∨ isDigit c = true then
        (scanNumber cs).map fun p => (.num p.1, p.2)
      else if c = '"' then
        (scanString t).map fun p => (.str (unquote p.1), p.2)
      else if c = '{' then
        if maxNestingDepth ≤ depth then none
        else
          match skipSpace t with
          | '}' :: r => some (.obj [], r)
          | r => (parseMembers fuel (depth + 1) r).map fun p => (.obj p.1, p.2)
      else if c = '[' then
        if maxNestingDepth ≤ depth then none
        else
          match skipSpace t with
          | ']' :: r => some (.arr [], r)
          | r => (parseElements fuel (depth + 1) r).map fun p => (.arr p.1, p.2)
      else scanKeyword cs
/-- Members of an object, from a key up to and including the closing brace. -/
def parseMembers : Nat → Nat → List Char → Option (List (List Char × JSON) × List Char)
  | 0, _, _ => none
  | fuel + 1, depth, cs =>
    match cs with
    | '"' :: t =>
      match scanString t with
      | none => none
      | some (raw, r) =>
        match skipSpace r with
        | ':' :: r =>
          match parseValue fuel depth (skipSpace r) with
          | none => none
          | some (v, r) =>
            match skipSpace r with
            | ',' :: r => (parseMembers fuel depth (skipSpace r)).map fun p => ((unquote raw, v) :: p.1, p.2)
            | '}' :: r => some ([(unquote raw, v)], r)
            | _ => none
        | _ => none
    | _ => none
/-- Elements of an array, from a value up to and including the closing bracket. -/
def parseElements : Nat → Nat → List Char → Option (List JSON × List Char)
  | 0, _, _ => none
  | fuel + 1, depth, cs =>
    match parseValue fuel depth cs with
    | none => none
    | some (v, r) =>
      match skipSpace r with
      | ',' :: r => (parseElements fuel depth (skipSpace r)).map fun p => (v :: p.1, p.2)
      | ']' :: r => some ([v], r)
      | _ => none
end

/-- Function `checkValid` together with the parse: the whole input is one JSON value
between optional spaces. -/
def parse (data : List Char) : Option JSON :=
  match parseValue (2 * data.length + 2) 0 (skipSpace data) with
  | none => none
  | some (v, r) => if skipSpace r = [] then some v else none

/-- Value of a non-empty run of decimal digits. -/
def parseDigits : List Char → Nat → Option Nat
  | [], acc => some acc
  | c :: cs, acc => if isDigit c then parseDigits cs (acc * 10 + (c.toNat - 48)) else none

/-- Function `strconv.ParseInt(lit, 10, 64)` on a JSON number literal: a literal with a
fraction or an exponent, or out of range, is an error. -/
def ParseInt (lit : List Char) : Option Int :=
  match lit with
  | [] => none
  | '-' :: ds =>
    if ds = [] then none
    else (parseDigits ds 0).bind fun n => if n ≤ 9223372036854775808 then some (-(n : Int)) else none
  | ds => (parseDigits ds 0).bind fun n => if n ≤ 9223372036854775807 then some (n : Int) else none

/-- ASCII upper case of a character, the fold under which field names are compared. -/
def foldChar (c : Char) : Nat := if 97 ≤ c.toNat ∧ c.toNat ≤ 122 then c.toNat - 32 else c.toNat

/-- Whether an object key names the field tagged `value`: exact match first, then the
case-insensitive match of the decoder. -/
def isValueKey (k : List Char) : Bool := k.map foldChar = [86, 65, 76, 85, 69]

/-- Decoder state: the struct being filled and `d.savedError`. -/
structure DecodeState where
  cache : Cache
  savedError : Option Err

/-- Function `literalStore` and its array and object siblings for the int field: `null`
leaves the field alone, an integer literal in range is stored, anything else saves an
UnmarshalTypeError (only the first one is kept) and decoding goes on. -/
def storeValue (st : DecodeState) (v : JSON) : DecodeState :=
  match v with
  | .null => st
  | .num lit =>
    match ParseInt lit with
    | some i => { st with cache := ⟨i⟩ }
    | none => { st with savedError := st.savedError.orElse fun _ => some Err.UnmarshalTypeError }
  | _ => { st with savedError := st.savedError.orElse fun _ => some Err.UnmarshalTypeError }

/-- Function `d.object` for the struct: each member whose key names the field is stored,
the others are skipped. -/
def decodeMembers (st : DecodeState) : List (List Char × JSON) → DecodeState
  | [] => st
  | (k, v) :: ms => decodeMembers (if isValueKey k then storeValue st v else st) ms

/-- Function `json.Unmarshal(data, &cache)`. -/
def Unmarshal (data : List Char) (cache : Cache) : Except Err Cache :=
  match parse data with
  | none => .error Err.SyntaxError
  | some .null => .ok cache
  | some (.obj ms) =>
    match decodeMembers ⟨cache, none⟩ ms with
    | ⟨c, none⟩ => .ok c
    | ⟨_, some e⟩ => .error e
  | some _ => .error Err.UnmarshalTypeError

/-! ## The record shape of the spec -/

def JSON.isNull : JSON → Bool
  | .null => true
  | _ => false

/-- An integer literal that fits a Go int. -/
def JSON.isInt64 : JSON → Bool
  | .num lit => (ParseInt lit).isSome
  | _ => false

/-- Spec-side notion, not code of the handler: a well-formed encoding of a counter
record, the shape `{"value": <int>}` of the data model read generously. The text is a
JSON object with a member named value (in any case) that carries an integer within the
signed 64-bit range; spaces, other members and their order do not matter. -/
def wellFormedRecord (data : List Char) : Bool :=
  match parse data with
  | some (.obj ms) => ms.any fun m => isValueKey m.1 && m.2.isInt64
  | _ => false

/-- Spec-side notion, not code of the handler: a JSON text that carries no value at
all, which is the text `null` or an object whose members named value, if there are
any, all carry `null`. -/
def carriesNoValue (data : List Char) : Bool :=
  match parse data with
  | some .null => true
  | some (.obj ms) => ms.all fun m => !isValueKey m.1 || m.2.isNull
  | _ => false

instance : DecidableEq (Except Err Cache) := fun a b =>
  match a, b with
  | .ok x, .ok y => if h : x = y then isTrue (by rw [h]) else isFalse (by intro e; cases e; exact h rfl)
  | .error x, .error y => if h : x = y then isTrue (by rw [h]) else isFalse (by intro e; cases e; exact h rfl)
  | .ok _, .error _ => isFalse (by intro e; cases e)
  | .error _, .ok _ => isFalse (by intro e; cases e)

/-! ## The Redis server as seen through `go-redis` -/

/-- Constant `time.Minute`, in nanoseconds as a `time.Duration` counts. -/
def Minute : Nat := 60 * 1000000000

/-- Command `pipe.Set(ctx, key, value, expiration)`. -/
structure SetCmd where
  key : String
  value : List Char
  expiration : Nat
deriving DecidableEq, Repr

/-- What the server answers during one call of `cRedis.Watch`. -/
structure Round where
  /-- Error of the WATCH command, after which the function is not called. -/
  watch : Option Err
  /-- Both results of `tx.Get(ctx, key).Result()`. -/
  oldData : List Char
  getErr : Option Err
  /-- Error of `tx.TxPipelined`: nil when EXEC committed, `redis.TxFailedErr` when the
  watched key had changed, or another error. -/
  exec : Option Err
deriving DecidableEq, Repr

/-- Requests that reach the server, in order. -/
inductive Traffic
  | watch (key : String)
  | get (key : String)
  | exec (cmds : List SetCmd) (err : Option Err)
deriving DecidableEq, Repr

/-- What one run of the function given to `cRedis.Watch` leaves behind: the error it
returns, the captured variable `response`, and the requests it sent. -/
structure FnResult where
  err : Option Err
  response : Int
  traffic : List Traffic
deriving DecidableEq, Repr

/-- The function literal passed to `cRedis.Watch` in `Incr`. -/
def watchFn (key : String) (value : Int) (response : Int) (r : Round) : FnResult :=
  let cache : Cache := ⟨0⟩
  if r.getErr = some Err.Nil then
    let cache : Cache := ⟨value⟩
    let jsonData := Marshal cache
    let sent := [Traffic.get key, Traffic.exec [⟨key, jsonData, 30 * Minute⟩] r.exec]
    match r.exec with
    | some e => ⟨some e, response, sent⟩
    | none => ⟨none, cache.Value, sent⟩
  else if r.getErr ≠ none then ⟨r.getErr, response, [Traffic.get key]⟩
  else
    match (if r.oldData ≠ [] then Unmarshal r.oldData cache else .ok cache) with
    | .error e => ⟨some e, response, [Traffic.get key]⟩
    | .ok cache =>
      let cache : Cache := ⟨add64 cache.Value value⟩
      let response := cache.Value
      let jsonData := Marshal cache
      let sent := [Traffic.get key, Traffic.exec [⟨key, jsonData, 30 * Minute⟩] r.exec]
      match r.exec with
      | some e => ⟨some e, response, sent⟩
      | none => ⟨none, response, sent⟩

/-- Method `cRedis.Watch(ctx, fn, key)`: WATCH, then the function, whose error it returns. -/
def Watch (key : String) (value : Int) (response : Int) (r : Round) : FnResult :=
  match r.watch with
  | some e => ⟨some e, response, [Traffic.watch key]⟩
  | none =>
    let out := watchFn key value response r
    ⟨out.err, out.response, Traffic.watch key :: out.traffic⟩

/-- The loop labelled `REDIS`: one round of answers per iteration. The result is the
value of `response` at `break REDIS`, or nothing when the rounds run out while the loop
is still going. -/
def redisLoop (key : String) (value : Int) : Int → List Round → Option Int × List Traffic
  | _, [] => (none, [])
  | response, r :: rs =>
    let out := Watch key value response r
    if out.err = some Err.TxFailedErr then
      ((redisLoop key value out.response rs).1, out.traffic ++ (redisLoop key value out.response rs).2)
    else if out.err ≠ none then
      ((redisLoop key value out.response rs).1, out.traffic ++ (redisLoop key value out.response rs).2)
    else (some out.response, out.traffic)

/-- What the attempt of a round finds under the key: nothing, which counts as value 0,
or data that decodes to the record with value `v`. -/
def Round.holds (r : Round) (v : Int) : Prop :=
  (r.getErr = some Err.Nil ∧ v = 0) ∨ (r.getErr = none ∧ Unmarshal r.oldData ⟨0⟩ = .ok ⟨v⟩)

instance (r : Round) (v : Int) : Decidable (r.holds v) := by
  unfold Round.holds; exact inferInstance

/-- The value an attempt starts from: what the round holds, or 0 when the key is
present with an empty value, which the attempt does not hand to the decoder. -/
def Round.reads (r : Round) (v : Int) : Prop :=
  r.holds v ∨ (r.getErr = none ∧ r.oldData = [] ∧ v = 0)

instance (r : Round) (v : Int) : Decidable (r.reads v) := by
  unfold Round.reads; exact inferInstance

/-! ## The handlers -/

/-- Body of a `gin.H` answer. -/
inductive Body
  | value (v : Int)
  | id (n : Nat)
  | error (msg : String)
deriving DecidableEq, Repr

/-- One call of `c.JSON(status, body)`. -/
structure Reply where
  status : Nat
  body : Body
deriving DecidableEq, Repr

/-- Request body of `/redis/incr`: text the JSON decoder refuses for the request struct,
or an object with the fields it carries (an absent field and a `null` one are alike). -/
inductive IncrBody
  | invalid
  | object (key : Option String) (value : Option Int)
deriving DecidableEq, Repr

/-- The struct `request` of `Incr`. -/
structure IncrRequest where
  Key : String
  Value : Int
deriving DecidableEq, Repr

/-- Method `c.ShouldBindJSON(&request)`: the decoder fills the struct, leaving the zero
value where a field is absent and refusing a number outside `int`; then the validator
checks `binding:"required"`, which fails on a zero value. -/
def bindIncr : IncrBody → Option IncrRequest
  | .invalid => none
  | .object key value =>
    let request : IncrRequest := ⟨key.getD "", value.getD 0⟩
    if ¬ inInt64 request.Value then none
    else if request.Key = "" ∨ request.Value = 0 then none
    else some request

/-- What a handler call leaves behind. -/
structure Outcome where
  replies : List Reply
  traffic : List Traffic
deriving DecidableEq, Repr

/-- Handler `Incr`. -/
def Incr (body : IncrBody) (rounds : List Round) : Outcome :=
  match bindIncr body with
  | none => ⟨[⟨422, .error "Invalid query"⟩], []⟩
  | some request =>
    if request.Key = "" then ⟨[⟨422, .error "Key cannot be empty"⟩], []⟩
    else
      match redisLoop request.Key request.Value 0 rounds with
      | (none, sent) => ⟨[], sent⟩
      | (some response, sent) => ⟨[⟨200, .value response⟩], sent⟩

/-! ## A single-writer store -/

/-- Value and time to live of a key. -/
structure Entry where
  data : List Char
  ttl : Nat
deriving DecidableEq, Repr

/-- Contents of the Redis database. -/
def Store : Type := String → Option Entry

/-- Effect of a committed `Set`. -/
def Store.set (s : Store) (c : SetCmd) : Store :=
  fun k => if k = c.key then some ⟨c.value, c.expiration⟩ else s k

/-- Effect of the requests of a handler call: the commands of every EXEC that
answered without error. -/
def Store.apply (s : Store) : List Traffic → Store
  | [] => s
  | .exec cmds none :: rest => Store.apply (cmds.foldl Store.set s) rest
  | _ :: rest => Store.apply s rest

/-- Answers of a server that holds `s`, has no other client and does not fail. -/
def Store.round (s : Store) (key : String) : Round :=
  match s key with
  | none => ⟨none, [], some Err.Nil, none⟩
  | some e => ⟨none, e.data, none, none⟩

/-- Handler `Incr` against such a server, for at most `fuel` iterations of its loop.
An iteration that does not commit leaves the store as it was, so all see the same. -/
def IncrOn (s : Store) (fuel : Nat) (body : IncrBody) : Outcome × Store :=
  let key := match body with
    | .object (some k) _ => k
    | _ => ""
  let out := Incr body (List.replicate fuel (s.round key))
  (out, s.apply out.traffic)

/-- Calls of `Incr` on one key, one after the other, each complete before the next. -/
def IncrSeq (fuel : Nat) (key : String) : Store → List Int → List Outcome × Store
  | s, [] => ([], s)
  | s, d :: ds =>
    let step := IncrOn s fuel (.object (some key) (some d))
    ((IncrSeq fuel key step.2 ds).1.cons step.1, (IncrSeq fuel key step.2 ds).2)

/-! ## Concurrent calls of `Incr` on one key -/

/-- Where a call of `Incr` stands between two requests to the server: at the head of
the loop, after WATCH answered (with the number of writes the key had seen then), after
GET answered, or after `c.JSON`. -/
inductive Caller
  | loop (response : Int)
  | watched (response : Int) (seen : Nat)
  | got (response : Int) (seen : Nat) (oldData : List Char) (getErr : Option Err)
  | returned (reply : Reply)
deriving DecidableEq, Repr

/-- A server and the calls in flight. The server keeps its contents and the number of
writes the contested key has seen: WATCH remembers it, and EXEC is refused with
`redis.TxFailedErr` when it has changed since. -/
structure World where
  store : Store
  version : Nat
  callers : List Caller

/-- Whether an EXEC among the requests of an attempt went through. -/
def committed (sent : List Traffic) : Bool :=
  sent.any fun t =>
    match t with
    | .exec _ none => true
    | _ => false

/-- The next request of caller `i` of `Incr` with the body (key, delta), served at once:
WATCH, then GET, then the rest of the function given to `cRedis.Watch` up to EXEC and
the `switch` of the loop on its error. A caller that has returned does nothing. -/
def World.step (key : String) (delta : Int) (w : World) (i : Nat) : World :=
  match w.callers[i]? with
  | none => w
  | some (.loop response) => { w with callers := w.callers.set i (.watched response w.version) }
  | some (.watched response seen) =>
    let r := w.store.round key
    { w with callers := w.callers.set i (.got response seen r.oldData r.getErr) }
  | some (.got response seen oldData getErr) =>
    let exec := if seen = w.version then none else some Err.TxFailedErr
    let out := Watch key delta response ⟨none, oldData, getErr, exec⟩
    let next :=
      if out.err = some Err.TxFailedErr then Caller.loop out.response
      else if out.err ≠ none then Caller.loop out.response
      else Caller.returned ⟨200, .value out.response⟩
    { store := w.store.apply out.traffic,
      version := if committed out.traffic then w.version + 1 else w.version,
      callers := w.callers.set i next }
  | some (.returned _) => w

/-- The callers take their steps in the order of the schedule. -/
def World.run (key : String) (delta : Int) (w : World) (schedule : List Nat) : World :=
  schedule.foldl (World.step key delta) w

/-- The moment `n` calls have passed the binding and none has talked to the server. -/
def World.init (s : Store) (n : Nat) : World := ⟨s, 0, List.replicate n (.loop 0)⟩

def Caller.isReturned : Caller → Bool
  | .returned _ => true
  | _ => false

/-- Every call has answered. -/
def World.allReturned (w : World) : Bool := w.callers.all Caller.isReturned

/-- Number of calls that have answered. -/
def returnedCount : List Caller → Nat
  | [] => 0
  | c :: cs => (if c.isReturned then 1 else 0) + returnedCount cs

/-- What a caller remembers is not ahead of the server, what it read is still there
if no write came since its WATCH, and what it answered is 200 with a value. -/
def Caller.fresh (key : String) (w : World) : Caller → Prop
  | .loop _ => True
  | .watched _ seen => seen ≤ w.version
  | .got _ seen oldData getErr =>
    seen ≤ w.version ∧
      (seen = w.version →
        oldData = (w.store.round key).oldData ∧ getErr = (w.store.round key).getErr)
  | .returned reply => ∃ v, reply = ⟨200, .value v⟩

/-- What holds of the server and the callers at every moment of a run from a key that
was absent: the key has seen one write per call that answered, it holds the record of
that many deltas (wrapped to a Go int), and every caller is fresh. -/
def World.inv (key : String) (delta : Int) (w : World) : Prop :=
  w.version = returnedCount w.callers ∧
    ((w.version = 0 ∧ w.store key = none) ∨
      w.store key = some ⟨Marshal ⟨wrap64 (w.version * delta)⟩, 30 * Minute⟩) ∧
    ∀ c ∈ w.callers, c.fresh key w

/-! ## Handler `User` -/

/-- Number of bytes of a character in UTF-8. -/
def utf8Len (c : Char) : Nat :=
  if c.toNat < 0x80 then 1 else if c.toNat < 0x800 then 2 else if c.toNat < 0x10000 then 3 else 4

/-- Builtin `len` on a string: its number of bytes. -/
def len (s : String) : Nat := (s.toList.map utf8Len).sum

/-- Character class `[a-zA-Zа-яА-Я]`. -/
def isNameChar (c : Char) : Bool :=
  (97 ≤ c.toNat && c.toNat ≤ 122) || (65 ≤ c.toNat && c.toNat ≤ 90) ||
  (0x430 ≤ c.toNat && c.toNat ≤ 0x44f) || (0x410 ≤ c.toNat && c.toNat ≤ 0x42f)

/-- Pattern `^[a-zA-Zа-яА-Я]+$` matched against the whole name. -/
def matchNamePattern (name : String) : Bool := name.toList ≠ [] && name.toList.all isNameChar

/-- Request body of `/postgres/users`. -/
inductive UserBody
  | invalid
  | object (name : Option String) (age : Option Int)
deriving DecidableEq, Repr

/-- The struct `request` of `User`. -/
structure UserRequest where
  Name : String
  Age : Int
deriving DecidableEq, Repr

/-- Method `c.ShouldBindJSON(&request)` for `User`. -/
def bindUser : UserBody → Option UserRequest
  | .invalid => none
  | .object name age =>
    let request : UserRequest := ⟨name.getD "", age.getD 0⟩
    if ¬ inInt64 request.Age then none
    else if request.Name = "" ∨ request.Age = 0 then none
    else some request

/-- What a call of `User` leaves behind: its answers and the rows it created. -/
structure UserOutcome where
  replies : List Reply
  created : List String
deriving DecidableEq, Repr

/-- Column `entry.User`, the text `("name", age)`. -/
def userEntry (request : UserRequest) : String :=
  "(\"" ++ request.Name ++ "\", " ++ String.mk (FormatInt request.Age) ++ ")"

/-- Handler `User`; `db` is the answer of `db.C.Create`: the new id, or nothing when
the insert fails. -/
def User (body : UserBody) (db : Option Nat) : UserOutcome :=
  match bindUser body with
  | none => ⟨[⟨422, .error "Invalid query"⟩], []⟩
  | some request =>
    if request.Name = "" then ⟨[⟨422, .error "Name cannot be empty"⟩], []⟩
    else if len request.Name < 2 then ⟨[⟨422, .error "Name is too short"⟩], []⟩
    else if len request.Name > 50 then ⟨[⟨422, .error "Name is too long"⟩], []⟩
    else if ¬ matchNamePattern request.Name then
      ⟨[⟨422, .error "Name contains invalid characters"⟩], []⟩
    else if request.Age < 1 ∨ request.Age > 120 then ⟨[⟨422, .error "Invalid age value"⟩], []⟩
    else
      match db with
      | none => ⟨[⟨500, .error "Failed to create entry"⟩], []⟩
      | some id => ⟨[⟨200, .id id⟩], [userEntry request]⟩

/-! ## Lemmas: integers and decimal text -/

theorem wrap64_of_inInt64 {i : Int} (h : inInt64 i) : wrap64 i = i := by
  unfold inInt64 minInt64 maxInt64 at h
  unfold wrap64
  omega

theorem inInt64_wrap64 (i : Int) : inInt64 (wrap64 i) := by
  unfold inInt64 minInt64 maxInt64 wrap64
  omega

theorem wrap64_add_left (a b : Int) : wrap64 (wrap64 a + b) = wrap64 (a + b) := by
  unfold wrap64
  omega

theorem isDigit_digitChar : ∀ d, d < 10 → isDigit (digitChar d) = true := by decide

theorem digitChar_toNat : ∀ d, d < 10 → (digitChar d).toNat - 48 = d := by decide

theorem digitChar_ne_zero : ∀ d, d < 10 → 0 < d → digitChar d ≠ '0' := by decide

theorem isDigit_ne_minus {c : Char} (h : isDigit c = true) : c ≠ '-' := by
  rintro rfl
  exact absurd h (by decide)

theorem isDigit_not_space {c : Char} (h : isDigit c = true) : isSpace c = false := by
  unfold isDigit at h
  unfold isSpace
  have h1 : c ≠ ' ' := by rintro rfl; exact absurd h (by decide)
  have h2 : c ≠ '\t' := by rintro rfl; exact absurd h (by decide)
  have h3 : c ≠ '\r' := by rintro rfl; exact absurd h (by decide)
  have h4 : c ≠ '\n' := by rintro rfl; exact absurd h (by decide)
  simp [h1, h2, h3, h4]

theorem formatBits_digits : ∀ f n, ∀ x ∈ formatBits f n, isDigit x = true := by
  intro f
  induction f with
  | zero => intro n x hx; simp [formatBits] at hx
  | succ f ih =>
    intro n x hx
    unfold formatBits at hx
    split at hx
    · simp at hx; subst hx; exact isDigit_digitChar n (by assumption)
    · simp at hx
      rcases hx with hx | hx
      · exact ih _ _ hx
      · subst hx; exact isDigit_digitChar _ (Nat.mod_lt _ (by decide))

theorem formatBits_ne_nil : ∀ f n, n < f → formatBits f n ≠ [] := by
  intro f n h
  cases f with
  | zero => omega
  | succ f =>
    unfold formatBits
    split <;> simp

theorem formatBits_head : ∀ f n, n < f → 0 < n → ∀ t, formatBits f n ≠ '0' :: t := by
  intro f
  induction f with
  | zero => intro n h; omega
  | succ f ih =>
    intro n h hpos t
    unfold formatBits
    split
    · intro heq
      simp at heq
      exact digitChar_ne_zero n (by assumption) hpos heq.1
    · intro heq
      have hlt : n / 10 < f := by omega
      have hne := formatBits_ne_nil f (n / 10) hlt
      cases hfb : formatBits f (n / 10) with
      | nil => exact hne hfb
      | cons c u =>
        rw [hfb] at heq
        simp at heq
        exact ih (n / 10) hlt (by omega) u (by rw [hfb, heq.1])

theorem parseDigits_append (xs : List Char) (d : Char) (hd : isDigit d = true) :
    ∀ acc, parseDigits (xs ++ [d]) acc = (parseDigits xs acc).map fun m => m * 10 + (d.toNat - 48) := by
  induction xs with
  | nil => intro acc; simp [parseDigits, hd]
  | cons x xs ih =>
    intro acc
    simp only [List.cons_append, parseDigits]
    split
    · exact ih _
    · rfl

theorem parseDigits_formatBits : ∀ f n, n < f → parseDigits (formatBits f n) 0 = some n := by
  intro f
  induction f with
  | zero => intro n h; omega
  | succ f ih =>
    intro n h
    unfold formatBits
    split
    · rename_i h10
      simp [parseDigits, isDigit_digitChar n h10, digitChar_toNat n h10]
    · have hlt : n / 10 < f := by omega
      rw [parseDigits_append _ _ (isDigit_digitChar _ (Nat.mod_lt _ (by decide))), ih _ hlt,
        digitChar_toNat _ (Nat.mod_lt _ (by decide))]
      simp
      omega

theorem digits_append (ds : List Char) (h : ∀ x ∈ ds, isDigit x = true) (c : Char) (r : List Char)
    (hc : isDigit c = false) : digits (ds ++ c :: r) = (ds, c :: r) := by
  induction ds with
  | nil => simp [digits, hc]
  | cons x xs ih =>
    have hx : isDigit x = true := h x (by simp)
    have := ih (fun y hy => h y (by simp [hy]))
    simp [digits, hx, this]

theorem scanInt_formatBits (n : Nat) (r : List Char) :
    scanInt (formatBits (n + 1) n ++ '}' :: r) = some (formatBits (n + 1) n, '}' :: r) := by
  have hd := formatBits_digits (n + 1) n
  have hne := formatBits_ne_nil (n + 1) n (by omega)
  cases hfb : formatBits (n + 1) n with
  | nil => exact absurd hfb hne
  | cons c t =>
    rw [hfb] at hd
    have hc : isDigit c = true := hd c (by simp)
    have ht : ∀ x ∈ t, isDigit x = true := fun x hx => hd x (by simp [hx])
    by_cases h0 : c = '0'
    · subst h0
      have hn : n = 0 := by
        by_contra hn
        exact formatBits_head (n + 1) n (by omega) (by omega) t hfb
      subst hn
      simp [formatBits] at hfb
      simp [scanInt, ← hfb.2]
    · simp [scanInt, h0, hc, digits_append t ht '}' r (by decide)]

theorem scanNumber_digits (ds r : List Char) (c : Char) (t : List Char) (hds : ds = c :: t)
    (hc : isDigit c = true)
    (h : scanInt (ds ++ '}' :: r) = some (ds, '}' :: r)) :
    scanNumber (ds ++ '}' :: r) = some (ds, '}' :: r) := by
  subst hds
  have hm := isDigit_ne_minus hc
  simp only [List.cons_append] at h ⊢
  unfold scanNumber
  split
  · rename_i heq
    simp at heq
    exact absurd heq.1 hm
  · simp [h, scanFrac, scanExp]

theorem FormatInt_scan (v : Int) (r : List Char) :
    scanNumber (FormatInt v ++ '}' :: r) = some (FormatInt v, '}' :: r) := by
  cases v with
  | ofNat n =>
    have hne := formatBits_ne_nil (n + 1) n (by omega)
    cases hfb : formatBits (n + 1) n with
    | nil => exact absurd hfb hne
    | cons c t =>
      have hc : isDigit c = true := formatBits_digits (n + 1) n c (by simp [hfb])
      simp only [FormatInt]
      exact scanNumber_digits _ r c t hfb hc (scanInt_formatBits n r)
  | negSucc n =>
    simp only [FormatInt, List.cons_append]
    unfold scanNumber
    simp [scanInt_formatBits (n + 1) r, scanFrac, scanExp]

theorem FormatInt_head (v : Int) :
    ∃ c t, FormatInt v = c :: t ∧ (c = '-' ∨ isDigit c = true) := by
  cases v with
  | ofNat n =>
    have hne := formatBits_ne_nil (n + 1) n (by omega)
    cases hfb : formatBits (n + 1) n with
    | nil => exact absurd hfb hne
    | cons c t =>
      exact ⟨c, t, by simp [FormatInt, hfb], Or.inr (formatBits_digits (n + 1) n c (by simp [hfb]))⟩
  | negSucc n => exact ⟨'-', _, rfl, Or.inl rfl⟩

theorem ParseInt_FormatInt (v : Int) (h : inInt64 v) : ParseInt (FormatInt v) = some v := by
  unfold inInt64 minInt64 maxInt64 at h
  cases v with
  | ofNat n =>
    have hne := formatBits_ne_nil (n + 1) n (by omega)
    have hp := parseDigits_formatBits (n + 1) n (by omega)
    cases hfb : formatBits (n + 1) n with
    | nil => exact absurd hfb hne
    | cons c t =>
      have hc : isDigit c = true := formatBits_digits (n + 1) n c (by simp [hfb])
      have hm := isDigit_ne_minus hc
      simp only [FormatInt, hfb]
      rw [hfb] at hp
      unfold ParseInt
      split
      · rename_i heq; simp at heq
      · rename_i heq; simp at heq; exact absurd heq.1 hm
      · rw [hp]
        have : n ≤ 9223372036854775807 := by
          have := h.2
          simp at this
          omega
        simp [this]
  | negSucc n =>
    have hne := formatBits_ne_nil (n + 2) (n + 1) (by omega)
    have hp := parseDigits_formatBits (n + 2) (n + 1) (by omega)
    simp only [FormatInt]
    unfold ParseInt
    simp only [hne, if_false, hp, Option.some_bind]
    have hn : Int.negSucc n = -((n : Int) + 1) := Int.negSucc_eq n
    have : n + 1 ≤ 9223372036854775808 := by
      have := h.1
      omega
    simp [this]
    omega

/-! ## Lemmas: the codec -/

theorem skipSpace_FormatInt (v : Int) (r : List Char) :
    skipSpace (FormatInt v ++ r) = FormatInt v ++ r := by
  obtain ⟨c, t, hf, hc⟩ := FormatInt_head v
  rw [hf]
  have : isSpace c = false := by
    rcases hc with rfl | hc
    · decide
    · exact isDigit_not_space hc
  simp [skipSpace, this]

theorem parseValue_FormatInt (f depth : Nat) (v : Int) (r : List Char) :
    parseValue (f + 1) depth (FormatInt v ++ '}' :: r) = some (.num (FormatInt v), '}' :: r) := by
  have hs := FormatInt_scan v r
  obtain ⟨c, t, hf, hc⟩ := FormatInt_head v
  rw [hf] at hs ⊢
  simp only [List.cons_append] at hs ⊢
  unfold parseValue
  simp [hc, hs]

theorem parseMembers_Marshal (f depth : Nat) (v : Int) :
    parseMembers (f + 2) depth
        ('"' :: 'v' :: 'a' :: 'l' :: 'u' :: 'e' :: '"' :: ':' :: (FormatInt v ++ ['}'])) =
      some ([(['v', 'a', 'l', 'u', 'e'], .num (FormatInt v))], []) := by
  unfold parseMembers
  simp [scanString, skipSpace, isSpace, skipSpace_FormatInt, parseValue_FormatInt, unquote, unquoteFrom,
    flushSurrogate]

theorem parse_Marshal (v : Int) :
    parse (Marshal ⟨v⟩) = some (.obj [(['v', 'a', 'l', 'u', 'e'], .num (FormatInt v))]) := by
  have h := parseMembers_Marshal (2 * (FormatInt v).length + 19) 1 v
  have hf : 2 * ((FormatInt v).length + 1 + 1 + 1 + 1 + 1 + 1 + 1 + 1 + 1 + 1) + 1 =
      2 * (FormatInt v).length + 19 + 2 := by
    omega
  unfold parse Marshal
  simp only [String.toList]
  simp [skipSpace, isSpace, parseValue, isDigit, maxNestingDepth, hf, h]

theorem Marshal_ne_nil (c : Cache) : Marshal c ≠ [] := by
  simp [Marshal, String.toList]

/-- Decoding what `Marshal` wrote gives the record back, whatever the target held. -/
theorem Unmarshal_Marshal (v : Int) (h : inInt64 v) (c : Cache) :
    Unmarshal (Marshal ⟨v⟩) c = .ok ⟨v⟩ := by
  unfold Unmarshal
  rw [parse_Marshal]
  simp [decodeMembers, isValueKey, foldChar, storeValue, ParseInt_FormatInt v h]

theorem ParseInt_inInt64 (lit : List Char) (i : Int) (h : ParseInt lit = some i) : inInt64 i := by
  unfold inInt64 minInt64 maxInt64
  unfold ParseInt at h
  split at h
  · simp at h
  · split at h
    · simp at h
    · obtain ⟨n, _, h⟩ := Option.bind_eq_some.mp h
      split at h
      · simp at h; omega
      · simp at h
  · obtain ⟨n, _, h⟩ := Option.bind_eq_some.mp h
    split at h
    · simp at h; omega
    · simp at h

theorem storeValue_inInt64 (st : DecodeState) (v : JSON) (h : inInt64 st.cache.Value) :
    inInt64 (storeValue st v).cache.Value := by
  unfold storeValue
  split
  · exact h
  · split
    · rename_i hp; exact ParseInt_inInt64 _ _ hp
    · exact h
  · exact h

theorem decodeMembers_inInt64 (ms : List (List Char × JSON)) :
    ∀ st : DecodeState, inInt64 st.cache.Value → inInt64 (decodeMembers st ms).cache.Value := by
  induction ms with
  | nil => intro st h; exact h
  | cons m ms ih =>
    intro st h
    obtain ⟨k, v⟩ := m
    unfold decodeMembers
    apply ih
    split
    · exact storeValue_inInt64 st v h
    · exact h

/-- A record that decodes holds a Go `int`. -/
theorem Unmarshal_inInt64 (data : List Char) (c c' : Cache) (hc : inInt64 c.Value)
    (h : Unmarshal data c = .ok c') : inInt64 c'.Value := by
  unfold Unmarshal at h
  split at h
  · simp at h
  · simp at h; subst h; exact hc
  · rename_i ms _
    have := decodeMembers_inInt64 ms ⟨c, none⟩ hc
    split at h
    · rename_i c1 heq
      simp at h
      subst h
      rw [heq] at this
      exact this
    · simp at h
  · simp at h

theorem Unmarshal_nil (c : Cache) : Unmarshal [] c = .error Err.SyntaxError := by
  rfl

theorem inInt64_zero : inInt64 0 := by decide

/-! ## Lemmas: the fuel of the parser -/

theorem skipSpace_length (cs : List Char) : (skipSpace cs).length ≤ cs.length := by
  induction cs with
  | nil => simp [skipSpace]
  | cons c cs ih =>
    unfold skipSpace
    split
    · simp; omega
    · simp

theorem digits_length (cs : List Char) : (digits cs).2.length ≤ cs.length := by
  induction cs with
  | nil => simp [digits]
  | cons c cs ih =>
    unfold digits
    split
    · simp; omega
    · simp

theorem scanInt_length {cs i r : List Char} (h : scanInt cs = some (i, r)) :
    r.length < cs.length := by
  unfold scanInt at h
  split at h
  · simp at h
  · rename_i c t
    split at h
    · simp at h; simp [← h.2]
    · split at h
      · simp at h
        have := digits_length t
        simp [← h.2]
        omega
      · simp at h

theorem scanFrac_length {cs f r : List Char} (h : scanFrac cs = some (f, r)) :
    r.length ≤ cs.length := by
  unfold scanFrac at h
  split at h
  · rename_i t
    have := digits_length t
    split at h
    · simp at h
    · rename_i ds r' heq
      simp at h
      rw [heq] at this
      simp at this
      simp [← h.2]
      omega
  · simp at h; simp [← h.2]

theorem scanExp_length {cs e r : List Char} (h : scanExp cs = some (e, r)) :
    r.length ≤ cs.length := by
  unfold scanExp at h
  split at h
  · simp at h; simp [← h.2]
  · rename_i c t
    split at h
    · split at h
      · simp at h
      · rename_i s u
        split at h
        · have := digits_length u
          split at h
          · simp at h
          · rename_i ds r' heq
            simp at h
            rw [heq] at this
            simp at this
            simp [← h.2]
            omega
        · have := digits_length (s :: u)
          split at h
          · simp at h
          · rename_i ds r' heq
            simp at h
            rw [heq] at this
            simp at this
            simp [← h.2]
            omega
    · simp at h; simp [← h.2]

theorem scanNumber_length {cs lit r : List Char} (h : scanNumber cs = some (lit, r)) :
    r.length < cs.length := by
  have body : ∀ (t : List Char) (sign : List Char),
      (match scanInt t with
        | none => none
        | some (i, r) =>
          match scanFrac r with
          | none => none
          | some (f, r) =>
            match scanExp r with
            | none => none
            | some (e, r) => some (sign ++ i ++ f ++ e, r)) = some (lit, r) →
      r.length < t.length := by
    intro t sign hb
    split at hb
    · simp at hb
    · rename_i i r1 h1
      split at hb
      · simp at hb
      · rename_i f r2 h2
        split at hb
        · simp at hb
        · rename_i e r3 h3
          simp at hb
          have := scanInt_length h1
          have := scanFrac_length h2
          have := scanExp_length h3
          rw [← hb.2]
          omega
  unfold scanNumber at h
  split at h
  · rename_i t
    have := body t _ h
    simp
    omega
  · exact body cs _ h

theorem scanString_length : ∀ (t : List Char) {raw r : List Char},
    scanString t = some (raw, r) → r.length < t.length := by
  intro t
  induction t using scanString.induct with
  | case1 => intro raw r h; simp [scanString] at h
  | case2 t => intro raw r h; simp [scanString] at h; simp [← h.2]
  | case3 a b c d t hg =>
    intro raw r h
    simp [scanString, hg] at h
  | case4 a b c d t x hg ih =>
    intro raw r h
    simp only [scanString, hg] at h
    obtain ⟨p, hp, hpr⟩ := Option.map_eq_some'.mp h
    have := @ih p.1 p.2 hp
    simp at hpr
    simp [← hpr.2]
    omega
  | case5 e t hne hok ih =>
    intro raw r h
    rw [scanString] at h
    · simp only [hok, if_true] at h
      obtain ⟨p, hp, hpr⟩ := Option.map_eq_some'.mp h
      have := @ih p.1 p.2 hp
      simp at hpr
      simp [← hpr.2]
      omega
    · exact hne
  | case6 e t hne hbad =>
    intro raw r h
    rw [scanString] at h
    · simp [hbad] at h
    · exact hne
  | case7 c t h1 h2 h3 hbad =>
    intro raw r h
    rw [scanString] at h
    · simp [hbad] at h
    · exact h1
    · exact h2
    · exact h3
  | case8 c t h1 h2 h3 hok ih =>
    intro raw r h
    rw [scanString] at h
    · simp only [hok, if_false] at h
      obtain ⟨p, hp, hpr⟩ := Option.map_eq_some'.mp h
      have := @ih p.1 p.2 hp
      simp at hpr
      simp [← hpr.2]
      omega
    · exact h1
    · exact h2
    · exact h3


theorem scanKeyword_length {cs : List Char} {v : JSON} {r : List Char}
    (h : scanKeyword cs = some (v, r)) : r.length < cs.length := by
  unfold scanKeyword at h
  split at h <;> simp at h <;> simp [← h.2] <;> omega

theorem parse_length : ∀ f,
    (∀ d cs v r, parseValue f d cs = some (v, r) → r.length < cs.length) ∧
    (∀ d cs ms r, parseMembers f d cs = some (ms, r) → r.length < cs.length) ∧
    (∀ d cs xs r, parseElements f d cs = some (xs, r) → r.length < cs.length) := by
  intro f
  induction f with
  | zero => refine ⟨?_, ?_, ?_⟩ <;> intro d cs v r h <;> simp [parseValue, parseMembers, parseElements] at h
  | succ f ih =>
    obtain ⟨ihV, ihM, ihE⟩ := ih
    refine ⟨?_, ?_, ?_⟩
    · intro d cs v r h
      cases cs with
      | nil => simp [parseValue] at h
      | cons c t =>
        have hs := skipSpace_length t
        simp only [parseValue] at h
        split at h
        · obtain ⟨p, hp, hpr⟩ := Option.map_eq_some'.mp h
          have := @scanNumber_length (c :: t) p.1 p.2 hp
          simp at hpr
          rw [← hpr.2]
          exact this
        · split at h
          · obtain ⟨p, hp, hpr⟩ := Option.map_eq_some'.mp h
            have := @scanString_length t p.1 p.2 hp
            simp at hpr
            simp [← hpr.2]
            omega
          · split at h
            · split at h
              · simp at h
              · split at h
                · rename_i r' heq
                  simp at h
                  rw [heq] at hs
                  simp at hs
                  simp [← h.2]
                  omega
                · obtain ⟨p, hp, hpr⟩ := Option.map_eq_some'.mp h
                  have := ihM _ _ p.1 p.2 hp
                  simp at hpr
                  simp [← hpr.2]
                  omega
            · split at h
              · split at h
                · simp at h
                · split at h
                  · rename_i r' heq
                    simp at h
                    rw [heq] at hs
                    simp at hs
                    simp [← h.2]
                    omega
                  · obtain ⟨p, hp, hpr⟩ := Option.map_eq_some'.mp h
                    have := ihE _ _ p.1 p.2 hp
                    simp at hpr
                    simp [← hpr.2]
                    omega
              · exact scanKeyword_length h
    · intro d cs ms r h
      simp only [parseMembers] at h
      split at h
      · rename_i t
        split at h
        · simp at h
        · rename_i raw r1 hstr
          have h1 := scanString_length t hstr
          have h2 := skipSpace_length r1
          split at h
          · rename_i r2 hcolon
            rw [hcolon] at h2
            have h3 := skipSpace_length r2
            split at h
            · simp at h
            · rename_i v r3 hval
              have h4 := ihV _ _ _ _ hval
              have h5 := skipSpace_length r3
              split at h
              · rename_i r4 hcomma
                rw [hcomma] at h5
                have h6 := skipSpace_length r4
                obtain ⟨p, hp, hpr⟩ := Option.map_eq_some'.mp h
                have := ihM _ _ p.1 p.2 hp
                simp at hpr h2 h5
                simp [← hpr.2]
                omega
              · rename_i r4 hbrace
                rw [hbrace] at h5
                simp at h h2 h5
                simp [← h.2]
                omega
              · simp at h
          · simp at h
      · simp at h
    · intro d cs xs r h
      simp only [parseElements] at h
      split at h
      · simp at h
      · rename_i v r1 hval
        have h1 := ihV _ _ _ _ hval
        have h2 := skipSpace_length r1
        split at h
        · rename_i r2 hcomma
          rw [hcomma] at h2
          have h3 := skipSpace_length r2
          obtain ⟨p, hp, hpr⟩ := Option.map_eq_some'.mp h
          have := ihE _ _ p.1 p.2 hp
          simp at hpr h2
          simp [← hpr.2]
          omega
        · rename_i r2 hbr
          rw [hbr] at h2
          simp at h h2
          simp [← h.2]
          omega
        · simp at h


/-- Above twice the length of the input the fuel does not matter. -/
theorem parse_fuel : ∀ f,
    (∀ g d cs, 2 * cs.length < f → 2 * cs.length < g → parseValue f d cs = parseValue g d cs) ∧
    (∀ g d cs, 2 * cs.length < f → 2 * cs.length < g →
      parseMembers f d cs = parseMembers g d cs) ∧
    (∀ g d cs, 2 * cs.length + 1 < f → 2 * cs.length + 1 < g →
      parseElements f d cs = parseElements g d cs) := by
  intro f
  induction f with
  | zero => refine ⟨?_, ?_, ?_⟩ <;> intro g d cs h <;> omega
  | succ f ih =>
    obtain ⟨ihV, ihM, ihE⟩ := ih
    refine ⟨?_, ?_, ?_⟩
    · intro g d cs hf hg
      cases g with
      | zero => omega
      | succ g =>
        cases cs with
        | nil => simp [parseValue]
        | cons c t =>
          simp only [List.length_cons] at hf hg
          have hs := skipSpace_length t
          have hM := ihM g (d + 1) (skipSpace t) (by omega) (by omega)
          have hE := ihE g (d + 1) (skipSpace t) (by omega) (by omega)
          simp only [parseValue]
          split
          · rfl
          · split
            · rfl
            · split
              · split
                · rfl
                · split
                  · rfl
                  · rw [hM]
              · split
                · split
                  · rfl
                  · split
                    · rfl
                    · rw [hE]
                · rfl
    · intro g d cs hf hg
      cases g with
      | zero => omega
      | succ g =>
        simp only [parseMembers]
        split
        · rename_i t
          simp only [List.length_cons] at hf hg
          split
          · rfl
          · rename_i raw r1 hstr
            have h1 := scanString_length t hstr
            have h2 := skipSpace_length r1
            split
            · rename_i r2 hcolon
              rw [hcolon] at h2
              simp only [List.length_cons] at h2
              have h3 := skipSpace_length r2
              rw [ihV g d (skipSpace r2) (by omega) (by omega)]
              split
              · rfl
              · rename_i v r3 hval
                have h4 := (parse_length g).1 _ _ _ _ hval
                have h5 := skipSpace_length r3
                split
                · rename_i r4 hcomma
                  rw [hcomma] at h5
                  simp only [List.length_cons] at h5
                  have h6 := skipSpace_length r4
                  rw [ihM g d (skipSpace r4) (by omega) (by omega)]
                · rfl
                · rfl
            · rfl
        · rfl
    · intro g d cs hf hg
      cases g with
      | zero => omega
      | succ g =>
        simp only [parseElements]
        rw [ihV g d cs (by omega) (by omega)]
        split
        · rfl
        · rename_i v r1 hval
          have h1 := (parse_length g).1 _ _ _ _ hval
          have h2 := skipSpace_length r1
          split
          · rename_i r2 hcomma
            rw [hcomma] at h2
            simp only [List.length_cons] at h2
            have h3 := skipSpace_length r2
            rw [ihE g d (skipSpace r2) (by omega) (by omega)]
          · rfl
          · rfl

/-- The fuel that `parse` hands out is enough: any larger one gives the same parse. -/
theorem parse_fuel_enough (data : List Char) (extra : Nat) :
    parseValue (2 * data.length + 2 + extra) 0 (skipSpace data) =
      parseValue (2 * data.length + 2) 0 (skipSpace data) := by
  have := skipSpace_length data
  exact (parse_fuel _).1 _ 0 _ (by omega) (by omega)

/-! ## Lemmas: one attempt, the retry loop, the single-writer store -/

theorem add64_zero_left {d : Int} (h : inInt64 d) : add64 0 d = d := by
  unfold add64
  rw [Int.zero_add]
  exact wrap64_of_inInt64 h

theorem holds_oldData_ne_nil {r : Round} {v : Int}
    (h : Unmarshal r.oldData ⟨0⟩ = .ok ⟨v⟩) : r.oldData ≠ [] := by
  intro h0
  rw [h0, Unmarshal_nil] at h
  simp at h

/-- The function given to `Watch`, when EXEC commits: one `Set` of the new record. -/
theorem watchFn_commit (key : String) (delta response v : Int) (r : Round)
    (hdelta : inInt64 delta) (hexec : r.exec = none) (hv : r.reads v) :
    watchFn key delta response r =
      ⟨none, add64 v delta,
        [Traffic.get key, Traffic.exec [⟨key, Marshal ⟨add64 v delta⟩, 30 * Minute⟩] none]⟩ := by
  rcases hv with (⟨hg, rfl⟩ | ⟨hg, hu⟩) | ⟨hg, h0, rfl⟩
  · simp [watchFn, hg, hexec, add64_zero_left hdelta]
  · simp [watchFn, hg, hexec, holds_oldData_ne_nil hu, hu]
  · simp [watchFn, hg, hexec, h0]

theorem Watch_commit (key : String) (delta response v : Int) (r : Round)
    (hdelta : inInt64 delta) (hwatch : r.watch = none) (hexec : r.exec = none) (hv : r.reads v) :
    Watch key delta response r =
      ⟨none, add64 v delta,
        [Traffic.watch key, Traffic.get key,
          Traffic.exec [⟨key, Marshal ⟨add64 v delta⟩, 30 * Minute⟩] none]⟩ := by
  simp [Watch, hwatch, watchFn_commit key delta response v r hdelta hexec hv]

/-- An attempt returns nil only if WATCH and EXEC succeeded and the key was absent,
empty or decodable. -/
theorem Watch_ok (key : String) (delta response : Int) (r : Round)
    (h : (Watch key delta response r).err = none) :
    r.watch = none ∧ r.exec = none ∧ ∃ v, r.reads v := by
  unfold Watch at h
  cases hw : r.watch with
  | some e => simp [hw] at h
  | none =>
    simp only [hw] at h
    unfold watchFn at h
    by_cases hnil : r.getErr = some Err.Nil
    · simp only [hnil, if_true] at h
      cases he : r.exec with
      | some e => simp [he] at h
      | none => exact ⟨rfl, rfl, 0, Or.inl (Or.inl ⟨hnil, rfl⟩)⟩
    · simp only [hnil, if_false] at h
      by_cases hg : r.getErr = none
      · by_cases h0 : r.oldData = []
        · simp only [hg, h0, ne_eq, not_true_eq_false, if_false] at h
          cases he : r.exec with
          | some e => simp [he] at h
          | none => exact ⟨rfl, rfl, 0, Or.inr ⟨hg, h0, rfl⟩⟩
        · simp only [hg, h0, ne_eq, not_true_eq_false, not_false_eq_true, if_true, if_false] at h
          cases hu : Unmarshal r.oldData ⟨0⟩ with
          | error e => simp [hu] at h
          | ok c =>
            cases he : r.exec with
            | some e => simp [hu, he] at h
            | none => exact ⟨rfl, rfl, c.Value, Or.inl (Or.inr ⟨hg, hu⟩)⟩
      · simp [hg] at h

/-- Neither the error nor the requests of an attempt depend on the value `response`
had before it. -/
theorem Watch_indep (key : String) (delta response : Int) (r : Round) :
    (Watch key delta response r).err = (Watch key delta 0 r).err ∧
      (Watch key delta response r).traffic = (Watch key delta 0 r).traffic := by
  unfold Watch watchFn
  cases r.watch <;> simp
  split <;> [skip; split] <;> constructor <;> (repeat' split) <;> simp_all

/-- An attempt that returns an error has committed nothing. -/
theorem Watch_err_no_commit (key : String) (delta response : Int) (r : Round)
    (h : (Watch key delta response r).err ≠ none) (cmds : List SetCmd) :
    Traffic.exec cmds none ∉ (Watch key delta response r).traffic := by
  revert h
  unfold Watch watchFn
  cases hw : r.watch <;> simp
  cases he : r.exec <;> (repeat' split) <;> simp_all

/-- Requests of the attempts of a list of rounds, one after the other. -/
theorem redisLoop_retry (key : String) (delta v : Int) (pre : List Round) (last : Round)
    (rest : List Round) (hdelta : inInt64 delta)
    (hpre : ∀ r ∈ pre, (Watch key delta 0 r).err ≠ none)
    (hwatch : last.watch = none) (hexec : last.exec = none) (hv : last.reads v) :
    ∀ response, redisLoop key delta response (pre ++ last :: rest) =
      (some (add64 v delta),
        (pre.map fun r => (Watch key delta 0 r).traffic).flatten ++
          [Traffic.watch key, Traffic.get key,
            Traffic.exec [⟨key, Marshal ⟨add64 v delta⟩, 30 * Minute⟩] none]) := by
  induction pre with
  | nil =>
    intro response
    simp [redisLoop, Watch_commit key delta response v last hdelta hwatch hexec hv]
  | cons r pre ih =>
    intro response
    have hr : (Watch key delta response r).err ≠ none := by
      rw [(Watch_indep key delta response r).1]
      exact hpre r (by simp)
    have ih' := ih (fun x hx => hpre x (by simp [hx])) (Watch key delta response r).response
    rw [List.cons_append, redisLoop, ih']
    simp [hr, (Watch_indep key delta response r).2]

/-- While every attempt returns an error the loop goes on: it has not reached
`break REDIS` when the rounds run out. -/
theorem redisLoop_all_fail (key : String) (delta : Int) (rounds : List Round)
    (h : ∀ r ∈ rounds, (Watch key delta 0 r).err ≠ none) :
    ∀ response, redisLoop key delta response rounds =
      (none, (rounds.map fun r => (Watch key delta 0 r).traffic).flatten) := by
  induction rounds with
  | nil => intro response; simp [redisLoop]
  | cons r rounds ih =>
    intro response
    have hr : (Watch key delta response r).err ≠ none := by
      rw [(Watch_indep key delta response r).1]
      exact h r (by simp)
    have ih' := ih (fun x hx => h x (by simp [hx])) (Watch key delta response r).response
    rw [redisLoop, ih']
    simp [hr, (Watch_indep key delta response r).2]

theorem bindIncr_valid (key : String) (d : Int) (hkey : key ≠ "") (hd : inInt64 d) (hnz : d ≠ 0) :
    bindIncr (.object (some key) (some d)) = some ⟨key, d⟩ := by
  simp [bindIncr, hkey, hd, hnz]

theorem Store.round_watch (s : Store) (key : String) : (s.round key).watch = none := by
  unfold Store.round; split <;> rfl

theorem Store.round_exec (s : Store) (key : String) : (s.round key).exec = none := by
  unfold Store.round; split <;> rfl

theorem Store.round_reads_set (s : Store) (key : String) (v : Int) (ttl : Nat) (hv : inInt64 v) :
    ((s.set ⟨key, Marshal ⟨v⟩, ttl⟩).round key).reads v := by
  left
  right
  simp [Store.round, Store.set, Unmarshal_Marshal v hv]

/-- One call of `Incr` on a single-writer store answers after its first attempt. -/
theorem IncrOn_step (s : Store) (fuel : Nat) (key : String) (d a : Int) (hkey : key ≠ "")
    (hd : inInt64 d) (hnz : d ≠ 0) (ha : (s.round key).reads a) :
    IncrOn s (fuel + 1) (.object (some key) (some d)) =
      (⟨[⟨200, .value (add64 a d)⟩],
          [Traffic.watch key, Traffic.get key,
            Traffic.exec [⟨key, Marshal ⟨add64 a d⟩, 30 * Minute⟩] none]⟩,
        s.set ⟨key, Marshal ⟨add64 a d⟩, 30 * Minute⟩) := by
  have h := redisLoop_retry key d a [] (s.round key) (List.replicate fuel (s.round key)) hd
    (by simp) (Store.round_watch s key) (Store.round_exec s key) ha 0
  simp only [List.nil_append, List.map_nil, List.flatten_nil] at h
  simp [IncrOn, Incr, bindIncr_valid key d hkey hd hnz, hkey, List.replicate_succ, h, Store.apply]

theorem IncrSeq_from (fuel : Nat) (key : String) (hkey : key ≠ "") (ds : List Int) :
    ∀ (s : Store) (a : Int), (s.round key).reads a → inInt64 a →
      (∀ d ∈ ds, inInt64 d ∧ d ≠ 0) →
      (∀ i, i < ds.length →
        ((IncrSeq (fuel + 1) key s ds).1[i]?).map (·.replies) =
          some [⟨200, .value (wrap64 (a + (ds.take (i + 1)).sum))⟩]) ∧
      ((IncrSeq (fuel + 1) key s ds).2.round key).reads (wrap64 (a + ds.sum)) ∧
      (ds ≠ [] → ∃ e, (IncrSeq (fuel + 1) key s ds).2 key = some e ∧ e.ttl = 30 * Minute ∧
        Unmarshal e.data ⟨0⟩ = .ok ⟨wrap64 (a + ds.sum)⟩) := by
  induction ds with
  | nil =>
    intro s a ha hin _
    simp [IncrSeq, wrap64_of_inInt64 hin, ha]
  | cons d ds ih =>
    intro s a ha hin hds
    have hd := hds d (by simp)
    have hstep := IncrOn_step s fuel key d a hkey hd.1 hd.2 ha
    have hin' : inInt64 (add64 a d) := inInt64_wrap64 _
    have ha' := Store.round_reads_set s key (add64 a d) (30 * Minute) hin'
    obtain ⟨ih1, ih2, ih3⟩ := ih (s.set ⟨key, Marshal ⟨add64 a d⟩, 30 * Minute⟩) (add64 a d) ha' hin'
      (fun x hx => hds x (by simp [hx]))
    have hw : ∀ x : Int, wrap64 (add64 a d + x) = wrap64 (a + (d + x)) := by
      intro x
      unfold add64
      rw [wrap64_add_left, Int.add_assoc]
    simp only [IncrSeq, hstep]
    refine ⟨?_, ?_, ?_⟩
    · intro i hi
      cases i with
      | zero => simp [add64]
      | succ i =>
        have := ih1 i (by simpa using hi)
        simp only [List.getElem?_cons_succ, List.take_succ_cons, List.sum_cons]
        rw [this, hw]
    · rw [List.sum_cons, ← hw]
      exact ih2
    · intro _
      by_cases hnil : ds = []
      · subst hnil
        refine ⟨⟨Marshal ⟨add64 a d⟩, 30 * Minute⟩, ?_, rfl, ?_⟩
        · simp [IncrSeq, Store.set]
        · simpa [add64] using Unmarshal_Marshal _ hin' ⟨0⟩
      · obtain ⟨e, he1, he2, he3⟩ := ih3 hnil
        exact ⟨e, he1, he2, by rw [List.sum_cons, ← hw]; exact he3⟩

/-! ## Lemmas: handler `User` -/

theorem one_le_utf8Len (c : Char) : 1 ≤ utf8Len c := by
  unfold utf8Len
  split <;> [skip; split <;> [skip; split]] <;> omega

theorem length_le_sum_utf8Len (cs : List Char) : cs.length ≤ (cs.map utf8Len).sum := by
  induction cs with
  | nil => simp
  | cons c cs ih =>
    have := one_le_utf8Len c
    simp only [List.length_cons, List.map_cons, List.sum_cons]
    omega

/-- A string has at least as many bytes as characters. -/
theorem length_le_len (s : String) : s.length ≤ len s :=
  length_le_sum_utf8Len s.data

/-- Handler `User` refuses by byte length: a name of fewer than 2 or more than 50
bytes gets 422 and no row, whatever the age and the database. -/
theorem User_rejects_by_len (name : String) (age : Option Int) (db : Option Nat)
    (h : len name < 2 ∨ 50 < len name) :
    (User (.object (some name) age) db).created = [] ∧
      ∀ r ∈ (User (.object (some name) age) db).replies, r.status = 422 := by
  unfold User
  split
  · simp
  · rename_i request hb
    have hname : request.Name = name := by
      unfold bindUser at hb
      simp only [Option.getD_some] at hb
      split at hb
      · simp at hb
      · split at hb
        · simp at hb
        · simp at hb; rw [← hb]
    rw [hname]
    by_cases h0 : name = ""
    · simp [h0]
    · rcases h with h | h
      · simp [h0, h]
      · have : ¬ len name < 2 := by omega
        simp [h0, this, h]

/-- A name of more than 50 characters is refused. -/
theorem User_rejects_long (name : String) (age : Option Int) (db : Option Nat)
    (h : 50 < name.length) :
    (User (.object (some name) age) db).created = [] ∧
      ∀ r ∈ (User (.object (some name) age) db).replies, r.status = 422 :=
  User_rejects_by_len name age db (Or.inr (Nat.lt_of_lt_of_le h (length_le_len name)))

/-! ## Lemmas: what the decoder refuses -/

theorem storeValue_sticky (st : DecodeState) (v : JSON) (h : st.savedError ≠ none) :
    (storeValue st v).savedError ≠ none := by
  unfold storeValue
  cases hs : st.savedError with
  | none => exact absurd hs h
  | some e => split <;> [skip; split; skip] <;> simp [hs, Option.orElse]

theorem decodeMembers_sticky (ms : List (List Char × JSON)) :
    ∀ st : DecodeState, st.savedError ≠ none → (decodeMembers st ms).savedError ≠ none := by
  induction ms with
  | nil => intro st h; exact h
  | cons m ms ih =>
    intro st h
    obtain ⟨k, v⟩ := m
    unfold decodeMembers
    apply ih
    split
    · exact storeValue_sticky st v h
    · exact h

theorem storeValue_kind (st : DecodeState) (v : JSON)
    (h : st.savedError = none ∨ st.savedError = some Err.UnmarshalTypeError) :
    (storeValue st v).savedError = none ∨
      (storeValue st v).savedError = some Err.UnmarshalTypeError := by
  unfold storeValue
  rcases h with h | h <;> split <;> [skip; split; skip; skip; split; skip] <;>
    simp [h, Option.orElse]

theorem decodeMembers_kind (ms : List (List Char × JSON)) :
    ∀ st : DecodeState, (st.savedError = none ∨ st.savedError = some Err.UnmarshalTypeError) →
      ((decodeMembers st ms).savedError = none ∨
        (decodeMembers st ms).savedError = some Err.UnmarshalTypeError) := by
  induction ms with
  | nil => intro st h; exact h
  | cons m ms ih =>
    intro st h
    obtain ⟨k, v⟩ := m
    unfold decodeMembers
    apply ih
    split
    · exact storeValue_kind st v h
    · exact h

/-- Members that carry no value leave the struct and the saved error alone. -/
theorem decodeMembers_quiet (ms : List (List Char × JSON)) :
    ∀ st : DecodeState, (ms.all fun m => !isValueKey m.1 || m.2.isNull) = true →
      decodeMembers st ms = st := by
  induction ms with
  | nil => intro st _; rfl
  | cons m ms ih =>
    intro st h
    obtain ⟨k, v⟩ := m
    simp only [List.all_cons, Bool.and_eq_true, Bool.or_eq_true, Bool.not_eq_true'] at h
    unfold decodeMembers
    rcases h.1 with hk | hv
    · simp only [hk, Bool.false_eq_true, if_false]
      exact ih st h.2
    · have : storeValue st v = st := by
        cases v <;> simp [JSON.isNull] at hv
        rfl
      split
      · rw [this]; exact ih st h.2
      · exact ih st h.2

/-- Members among which some member named value carries something, and none carries an
integer that fits, leave an error saved. -/
theorem decodeMembers_refuses (ms : List (List Char × JSON)) :
    ∀ st : DecodeState, (ms.any fun m => isValueKey m.1 && m.2.isInt64) = false →
      (ms.all fun m => !isValueKey m.1 || m.2.isNull) = false →
      (decodeMembers st ms).savedError ≠ none := by
  induction ms with
  | nil => intro st _ h; simp at h
  | cons m ms ih =>
    intro st hany hall
    obtain ⟨k, v⟩ := m
    simp only [List.any_cons, Bool.or_eq_false_iff, Bool.and_eq_false_iff] at hany
    simp only [List.all_cons, Bool.and_eq_false_iff] at hall
    unfold decodeMembers
    by_cases hk : isValueKey k = true
    · simp only [hk, if_true]
      by_cases hnull : v.isNull = true
      · have hst : storeValue st v = st := by
          cases v <;> simp [JSON.isNull] at hnull
          rfl
        rw [hst]
        rcases hall with hall | hall
        · simp [hk, hnull] at hall
        · exact ih st hany.2 hall
      · apply decodeMembers_sticky
        have hint : v.isInt64 = false := by
          rcases hany.1 with h | h
          · simp [hk] at h
          · exact h
        cases v with
        | null => simp [JSON.isNull] at hnull
        | num lit =>
          simp only [JSON.isInt64] at hint
          cases hp : ParseInt lit with
          | some i => simp [hp] at hint
          | none => cases hs : st.savedError <;> simp [storeValue, hp, hs, Option.orElse]
        | bool b => cases hs : st.savedError <;> simp [storeValue, hs, Option.orElse]
        | str x => cases hs : st.savedError <;> simp [storeValue, hs, Option.orElse]
        | arr xs => cases hs : st.savedError <;> simp [storeValue, hs, Option.orElse]
        | obj xs => cases hs : st.savedError <;> simp [storeValue, hs, Option.orElse]
    · simp only [hk, if_false]
      rcases hall with hall | hall
      · simp [hk] at hall
      · exact ih st hany.2 hall

/-- The decoder refuses every text that is neither a well-formed record nor without a
value, with one of its two errors. -/
theorem Unmarshal_refuses (data : List Char) (c : Cache) (hmal : wellFormedRecord data = false)
    (hsome : carriesNoValue data = false) :
    Unmarshal data c = .error Err.SyntaxError ∨
      Unmarshal data c = .error Err.UnmarshalTypeError := by
  unfold wellFormedRecord at hmal
  unfold carriesNoValue at hsome
  unfold Unmarshal
  cases hp : parse data with
  | none => left; rfl
  | some j =>
    rw [hp] at hmal hsome
    cases j with
    | null => simp at hsome
    | bool b => right; rfl
    | num lit => right; rfl
    | str x => right; rfl
    | arr xs => right; rfl
    | obj ms =>
      right
      simp only at hmal hsome
      have herr := decodeMembers_refuses ms ⟨c, none⟩ hmal hsome
      have hkind := decodeMembers_kind ms ⟨c, none⟩ (Or.inl rfl)
      cases hd : decodeMembers ⟨c, none⟩ ms with
      | mk c' e =>
        rw [hd] at herr hkind
        cases e with
        | none => simp at herr
        | some e =>
          simp at hkind
          simp [hd, hkind]

/-- The decoder accepts a text without a value and leaves the struct as it was. -/
theorem Unmarshal_quiet (data : List Char) (c : Cache) (h : carriesNoValue data = true) :
    Unmarshal data c = .ok c ∧ wellFormedRecord data = false := by
  unfold carriesNoValue at h
  unfold Unmarshal wellFormedRecord
  cases hp : parse data with
  | none => simp [hp] at h
  | some j =>
    rw [hp] at h
    cases j with
    | null => exact ⟨rfl, rfl⟩
    | bool b => simp at h
    | num lit => simp at h
    | str x => simp at h
    | arr xs => simp at h
    | obj ms =>
      simp only at h
      refine ⟨by simp [decodeMembers_quiet ms ⟨c, none⟩ h], ?_⟩
      simp only
      rw [List.any_eq_false]
      intro m hm
      have := (List.all_eq_true.mp h) m hm
      simp only [Bool.or_eq_true, Bool.not_eq_true'] at this
      rcases this with hk | hv
      · simp [hk]
      · have : m.2.isInt64 = false := by
          cases h2 : m.2 <;> simp [h2, JSON.isNull, JSON.isInt64] at hv ⊢
        simp [this]

/-- What `Marshal` writes is a well-formed record. -/
theorem wellFormedRecord_Marshal (v : Int) (h : inInt64 v) : wellFormedRecord (Marshal ⟨v⟩) = true := by
  unfold wellFormedRecord
  rw [parse_Marshal]
  simp [isValueKey, foldChar, JSON.isInt64, ParseInt_FormatInt v h]

/-- The decoder on sample texts, as `encoding/json` answers for the struct. -/
theorem Unmarshal_samples :
    Unmarshal "x".toList ⟨0⟩ = .error Err.SyntaxError ∧
      Unmarshal "\x7b\"value\":\x7d".toList ⟨0⟩ = .error Err.SyntaxError ∧
      Unmarshal "\x7b\"value\":01\x7d".toList ⟨0⟩ = .error Err.SyntaxError ∧
      Unmarshal "\x7b\"value\":1,\x7d".toList ⟨0⟩ = .error Err.SyntaxError ∧
      Unmarshal "[1]".toList ⟨0⟩ = .error Err.UnmarshalTypeError ∧
      Unmarshal "7".toList ⟨0⟩ = .error Err.UnmarshalTypeError ∧
      Unmarshal "\"7\"".toList ⟨0⟩ = .error Err.UnmarshalTypeError ∧
      Unmarshal "true".toList ⟨0⟩ = .error Err.UnmarshalTypeError ∧
      Unmarshal "\x7b\"value\":\"7\"\x7d".toList ⟨0⟩ = .error Err.UnmarshalTypeError ∧
      Unmarshal "\x7b\"value\":1.5\x7d".toList ⟨0⟩ = .error Err.UnmarshalTypeError ∧
      Unmarshal "\x7b\"value\":1e2\x7d".toList ⟨0⟩ = .error Err.UnmarshalTypeError ∧
      Unmarshal "\x7b\"value\":true\x7d".toList ⟨0⟩ = .error Err.UnmarshalTypeError ∧
      Unmarshal "\x7b\"value\":[]\x7d".toList ⟨0⟩ = .error Err.UnmarshalTypeError ∧
      Unmarshal "\x7b\"value\":9223372036854775808\x7d".toList ⟨0⟩ = .error Err.UnmarshalTypeError ∧
      Unmarshal "\x7b\"value\":7,\"value\":\"a\"\x7d".toList ⟨0⟩ = .error Err.UnmarshalTypeError ∧
      Unmarshal "null".toList ⟨0⟩ = .ok ⟨0⟩ ∧
      Unmarshal "\x7b\x7d".toList ⟨0⟩ = .ok ⟨0⟩ ∧
      Unmarshal "\x7b\"value\":null\x7d".toList ⟨0⟩ = .ok ⟨0⟩ ∧
      Unmarshal "\x7b\"other\":\"a\"\x7d".toList ⟨0⟩ = .ok ⟨0⟩ ∧
      Unmarshal " \x7b \"VALUE\" : -7 , \"x\" : [1, \x7b\x7d] \x7d ".toList ⟨0⟩ = .ok ⟨-7⟩ ∧
      Unmarshal "\x7b\"value\":1,\"value\":2\x7d".toList ⟨0⟩ = .ok ⟨2⟩ ∧
      Unmarshal "\x7b\"val\\u0075e\":-0\x7d".toList ⟨0⟩ = .ok ⟨0⟩ := by
  decide

/-! ## Lemmas: concurrent callers -/

theorem returnedCount_set (l : List Caller) : ∀ (i : Nat) (c c' : Caller), l[i]? = some c →
    returnedCount (l.set i c') + (if c.isReturned then 1 else 0) =
      returnedCount l + (if c'.isReturned then 1 else 0) := by
  induction l with
  | nil => intro i c c' h; simp at h
  | cons x xs ih =>
    intro i c c' h
    cases i with
    | zero =>
      simp at h
      subst h
      simp only [List.set_cons_zero, returnedCount]
      omega
    | succ i =>
      simp at h
      have := ih i c c' h
      simp only [List.set_cons_succ, returnedCount]
      omega

theorem returnedCount_of_all (l : List Caller) (h : l.all Caller.isReturned = true) :
    returnedCount l = l.length := by
  induction l with
  | nil => rfl
  | cons x xs ih =>
    simp only [List.all_cons, Bool.and_eq_true] at h
    simp [returnedCount, h.1, ih h.2]
    omega

theorem committed_false (sent : List Traffic) (h : ∀ cmds, Traffic.exec cmds none ∉ sent) :
    committed sent = false := by
  unfold committed
  rw [List.any_eq_false]
  intro t ht
  split
  · rename_i cmds
    exact absurd ht (h cmds)
  · simp

theorem Store.apply_no_commit (sent : List Traffic) :
    ∀ s : Store, (∀ cmds, Traffic.exec cmds none ∉ sent) → s.apply sent = s := by
  induction sent with
  | nil => intro s _; rfl
  | cons t ts ih =>
    intro s h
    have hts : ∀ cmds, Traffic.exec cmds none ∉ ts := fun cmds hm => h cmds (by simp [hm])
    cases t with
    | watch k => simpa [Store.apply] using ih s hts
    | get k => simpa [Store.apply] using ih s hts
    | exec cmds err =>
      cases err with
      | none => exact absurd (by simp) (h cmds)
      | some e => simpa [Store.apply] using ih s hts

theorem Caller.fresh_same (key : String) (w w' : World) (c : Caller)
    (hv : w'.version = w.version) (hs : w'.store key = w.store key) (h : c.fresh key w) :
    c.fresh key w' := by
  have hr : w'.store.round key = w.store.round key := by simp [Store.round, hs]
  cases c <;> simp only [Caller.fresh, hv, hr] at h ⊢ <;> exact h

theorem Caller.fresh_bump (key : String) (w w' : World) (c : Caller)
    (hv : w'.version = w.version + 1) (h : c.fresh key w) : c.fresh key w' := by
  cases c with
  | loop r => trivial
  | watched r seen =>
    simp only [Caller.fresh, hv] at h ⊢
    omega
  | got r seen d g =>
    simp only [Caller.fresh, hv] at h ⊢
    exact ⟨by omega, fun heq => by omega⟩
  | returned reply => exact h

theorem World.round_reads (key : String) (delta : Int) (w : World)
    (h : (w.version = 0 ∧ w.store key = none) ∨
      w.store key = some ⟨Marshal ⟨wrap64 (w.version * delta)⟩, 30 * Minute⟩) :
    (w.store.round key).reads (wrap64 (w.version * delta)) := by
  rcases h with ⟨h0, hn⟩ | hs
  · left; left
    simp [Store.round, hn, h0, wrap64]
  · left; right
    simp [Store.round, hs, Unmarshal_Marshal _ (inInt64_wrap64 _)]

theorem Store.round_eta (s : Store) (key : String) :
    s.round key = ⟨none, (s.round key).oldData, (s.round key).getErr, none⟩ := by
  unfold Store.round
  split <;> rfl

theorem World.step_idle (key : String) (delta : Int) (w : World) (i : Nat)
    (hc : w.callers[i]? = none ∨ ∃ reply, w.callers[i]? = some (.returned reply)) :
    w.step key delta i = w := by
  rcases hc with hc | ⟨reply, hc⟩ <;> simp [World.step, hc]

theorem World.step_loop (key : String) (delta : Int) (w : World) (i : Nat) (response : Int)
    (hc : w.callers[i]? = some (.loop response)) :
    w.step key delta i = ⟨w.store, w.version, w.callers.set i (.watched response w.version)⟩ := by
  simp [World.step, hc]

theorem World.step_watched (key : String) (delta : Int) (w : World) (i : Nat) (response : Int)
    (seen : Nat) (hc : w.callers[i]? = some (.watched response seen)) :
    w.step key delta i = ⟨w.store, w.version, w.callers.set i
      (.got response seen (w.store.round key).oldData (w.store.round key).getErr)⟩ := by
  simp [World.step, hc]

/-- The EXEC of a caller whose key has not been written since its WATCH commits. -/
theorem World.step_commit (key : String) (delta : Int) (hdelta : inInt64 delta) (w : World) (i : Nat)
    (response v : Int) (oldData : List Char) (getErr : Option Err)
    (hc : w.callers[i]? = some (.got response w.version oldData getErr))
    (hreads : (Round.mk none oldData getErr none).reads v) :
    w.step key delta i = ⟨w.store.set ⟨key, Marshal ⟨add64 v delta⟩, 30 * Minute⟩, w.version + 1,
      w.callers.set i (.returned ⟨200, .value (add64 v delta)⟩)⟩ := by
  have hW := Watch_commit key delta response v ⟨none, oldData, getErr, none⟩ hdelta rfl rfl hreads
  unfold World.step
  simp only [hc, if_true, hW]
  simp [committed, Store.apply]

/-- The EXEC of a caller whose key has been written since its WATCH changes nothing on
the server and sends the caller back to the head of the loop. -/
theorem World.step_conflict (key : String) (delta : Int) (w : World) (i : Nat)
    (response : Int) (seen : Nat) (oldData : List Char) (getErr : Option Err)
    (hc : w.callers[i]? = some (.got response seen oldData getErr)) (hsv : seen ≠ w.version) :
    ∃ r, w.step key delta i = ⟨w.store, w.version, w.callers.set i (.loop r)⟩ := by
  have herr : (Watch key delta response ⟨none, oldData, getErr, some Err.TxFailedErr⟩).err ≠ none := by
    intro h0
    have := (Watch_ok key delta response _ h0).2.1
    simp at this
  have hno := Watch_err_no_commit key delta response _ herr
  refine ⟨(Watch key delta response ⟨none, oldData, getErr, some Err.TxFailedErr⟩).response, ?_⟩
  unfold World.step
  simp only [hc, hsv, if_false, committed_false _ hno, Store.apply_no_commit _ w.store hno]
  simp [herr]

/-- One step of any caller keeps the invariant and the number of callers. -/
theorem World.inv_step (key : String) (delta : Int) (hdelta : inInt64 delta) (w : World) (i : Nat)
    (h : w.inv key delta) :
    (w.step key delta i).inv key delta ∧ (w.step key delta i).callers.length = w.callers.length := by
  obtain ⟨hver, hstore, hfresh⟩ := h
  cases hc : w.callers[i]? with
  | none => rw [World.step_idle key delta w i (Or.inl hc)]; exact ⟨⟨hver, hstore, hfresh⟩, rfl⟩
  | some c =>
    cases c with
    | returned reply =>
      rw [World.step_idle key delta w i (Or.inr ⟨reply, hc⟩)]
      exact ⟨⟨hver, hstore, hfresh⟩, rfl⟩
    | loop response =>
      rw [World.step_loop key delta w i response hc]
      refine ⟨⟨?_, hstore, ?_⟩, by simp⟩
      · have := returnedCount_set w.callers i _ (.watched response w.version) hc
        simp [Caller.isReturned] at this
        show w.version = returnedCount (w.callers.set i _)
        omega
      · intro c hm
        rcases List.mem_or_eq_of_mem_set hm with hm | rfl
        · exact Caller.fresh_same key w _ c rfl rfl (hfresh c hm)
        · simp [Caller.fresh]
    | watched response seen =>
      have hseen : seen ≤ w.version := by
        have := hfresh _ (List.getElem?_mem hc)
        simpa [Caller.fresh] using this
      rw [World.step_watched key delta w i response seen hc]
      refine ⟨⟨?_, hstore, ?_⟩, by simp⟩
      · have := returnedCount_set w.callers i _
          (.got response seen (w.store.round key).oldData (w.store.round key).getErr) hc
        simp [Caller.isReturned] at this
        show w.version = returnedCount (w.callers.set i _)
        omega
      · intro c hm
        rcases List.mem_or_eq_of_mem_set hm with hm | rfl
        · exact Caller.fresh_same key w _ c rfl rfl (hfresh c hm)
        · simp [Caller.fresh, hseen]
    | got response seen oldData getErr =>
      have hf := hfresh _ (List.getElem?_mem hc)
      simp only [Caller.fresh] at hf
      by_cases hsv : seen = w.version
      · subst hsv
        obtain ⟨hd, hg⟩ := hf.2 rfl
        have hreads : (Round.mk none oldData getErr none).reads (wrap64 (w.version * delta)) := by
          have := World.round_reads key delta w hstore
          rw [Store.round_eta w.store key, ← hd, ← hg] at this
          exact this
        rw [World.step_commit key delta hdelta w i response _ oldData getErr hc hreads]
        have hval : add64 (wrap64 (w.version * delta)) delta =
            wrap64 ((w.version + 1 : Nat) * delta) := by
          unfold add64
          rw [wrap64_add_left]
          congr 1
          push_cast
          ring
        refine ⟨⟨?_, ?_, ?_⟩, by simp⟩
        · have := returnedCount_set w.callers i _
            (.returned ⟨200, .value (add64 (wrap64 (w.version * delta)) delta)⟩) hc
          simp [Caller.isReturned] at this
          show w.version + 1 = returnedCount (w.callers.set i _)
          omega
        · right
          simp [Store.set, hval]
        · intro c hm
          rcases List.mem_or_eq_of_mem_set hm with hm | rfl
          · exact Caller.fresh_bump key w _ c rfl (hfresh c hm)
          · simp [Caller.fresh]
      · obtain ⟨r, hstep⟩ := World.step_conflict key delta w i response seen oldData getErr hc hsv
        rw [hstep]
        refine ⟨⟨?_, hstore, ?_⟩, by simp⟩
        · have := returnedCount_set w.callers i _ (.loop r) hc
          simp [Caller.isReturned] at this
          show w.version = returnedCount (w.callers.set i _)
          omega
        · intro c hm
          rcases List.mem_or_eq_of_mem_set hm with hm | rfl
          · exact Caller.fresh_same key w _ c rfl rfl (hfresh c hm)
          · simp [Caller.fresh]

theorem World.inv_run (key : String) (delta : Int) (hdelta : inInt64 delta) (schedule : List Nat) :
    ∀ w : World, w.inv key delta →
      (w.run key delta schedule).inv key delta ∧
        (w.run key delta schedule).callers.length = w.callers.length := by
  induction schedule with
  | nil => intro w h; exact ⟨h, rfl⟩
  | cons i rest ih =>
    intro w h
    obtain ⟨h1, h2⟩ := World.inv_step key delta hdelta w i h
    obtain ⟨h3, h4⟩ := ih _ h1
    exact ⟨h3, by rw [← h2]; exact h4⟩

theorem World.inv_init (key : String) (delta : Int) (s : Store) (n : Nat) (habsent : s key = none) :
    (World.init s n).inv key delta := by
  refine ⟨?_, Or.inl ⟨rfl, habsent⟩, ?_⟩
  · show 0 = returnedCount (List.replicate n (.loop 0))
    induction n with
    | zero => rfl
    | succ n ih => simp [List.replicate_succ, returnedCount, Caller.isReturned, ← ih]
  · intro c hm
    rw [(List.mem_replicate.mp hm).2]
    trivial

/-- After any schedule that lets all of n concurrent calls answer, the key has been
written n times and holds the record of n deltas, wrapped to a Go int. -/
theorem World.run_all_returned (key : String) (delta : Int) (hdelta : inInt64 delta) (s : Store)
    (n : Nat) (schedule : List Nat) (habsent : s key = none)
    (hdone : ((World.init s n).run key delta schedule).allReturned = true) :
    ((World.init s n).run key delta schedule).version = n ∧
      (((World.init s n).run key delta schedule).store.round key).reads (wrap64 (n * delta)) ∧
      (0 < n → ((World.init s n).run key delta schedule).store key =
        some ⟨Marshal ⟨wrap64 (n * delta)⟩, 30 * Minute⟩) ∧
      ∀ c ∈ ((World.init s n).run key delta schedule).callers,
        ∃ v, c = .returned ⟨200, .value v⟩ := by
  obtain ⟨⟨hver, hstore, hfresh⟩, hlen⟩ :=
    World.inv_run key delta hdelta schedule _ (World.inv_init key delta s n habsent)
  have hcount := returnedCount_of_all _ hdone
  have hn : ((World.init s n).run key delta schedule).version = n := by
    rw [hver, hcount, hlen]
    simp [World.init]
  refine ⟨hn, ?_, ?_, ?_⟩
  · have := World.round_reads key delta _ hstore
    rw [hn] at this
    exact this
  · intro hpos
    rcases hstore with ⟨h0, _⟩ | hs
    · omega
    · rw [hn] at hs
      exact hs
  · intro c hm
    have hret := (List.all_eq_true.mp hdone) c hm
    have hfr := hfresh c hm
    cases c with
    | returned reply =>
      obtain ⟨v, hv⟩ := hfr
      exact ⟨v, by rw [hv]⟩
    | loop r => simp [Caller.isReturned] at hret
    | watched r seen => simp [Caller.isReturned] at hret
    | got r seen d g => simp [Caller.isReturned] at hret

/-! ## The claims -/

/-- C5, codec round trip: for every record whose value is a Go int (negative, zero and
the two extreme values included), `json.Marshal` writes a non-empty text, so that `Incr`
does decode it, and `json.Unmarshal` of that text into the same struct, whatever the
struct held before, succeeds and yields exactly the record. -/
theorem codec_round_trip (r : Cache) (h : inInt64 r.Value) :
    Marshal r ≠ [] ∧ ∀ c : Cache, Unmarshal (Marshal r) c = .ok r :=
  ⟨Marshal_ne_nil r, fun c => Unmarshal_Marshal r.Value h c⟩

/-- C5 at the record with value `math.MinInt64`. -/
theorem codec_round_trip_witness :
    inInt64 (Cache.mk minInt64).Value ∧
      (Marshal ⟨minInt64⟩ ≠ [] ∧ ∀ c : Cache, Unmarshal (Marshal ⟨minInt64⟩) c = .ok ⟨minInt64⟩) :=
  ⟨by decide, codec_round_trip ⟨minInt64⟩ (by decide)⟩

/-- C1 as stated fails: on the fresh key "age" the accepted deltas 9223372036854775807
and 1 make the second call answer 200 with -9223372036854775808, which is not their
sum. -/
theorem incr_sum_overflow :
    ("age" ≠ "" ∧ ∀ d ∈ [(9223372036854775807 : Int), 1], inInt64 d ∧ d ≠ 0) ∧
      (IncrSeq 1 "age" (fun _ => none) [9223372036854775807, 1]).1.map (·.replies) =
        [[⟨200, .value 9223372036854775807⟩], [⟨200, .value (-9223372036854775808)⟩]] ∧
      (-9223372036854775808 : Int) ≠ 9223372036854775807 + 1 := by
  decide

/-- C1, amended: for every non-empty key absent from the store and every sequence of
deltas the handler accepts (Go ints other than 0), applied one call after the other
with no other writer, the i-th call answers 200 with d1+...+di reduced to the signed
64-bit range by two's-complement wrap-around, hence with d1+...+di itself whenever that
partial sum is a Go int, and after the last call the key holds, with a TTL of 30
minutes, a record that decodes to the wrapped sum of all deltas. -/
theorem incr_sum_wrapped (fuel : Nat) (key : String) (s : Store) (ds : List Int)
    (hkey : key ≠ "") (habsent : s key = none) (hds : ∀ d ∈ ds, inInt64 d ∧ d ≠ 0) :
    (∀ i, i < ds.length →
      ((IncrSeq (fuel + 1) key s ds).1[i]?).map (·.replies) =
        some [⟨200, .value (wrap64 ((ds.take (i + 1)).sum))⟩]) ∧
    (∀ i, i < ds.length → inInt64 ((ds.take (i + 1)).sum) →
      ((IncrSeq (fuel + 1) key s ds).1[i]?).map (·.replies) =
        some [⟨200, .value ((ds.take (i + 1)).sum)⟩]) ∧
    (ds ≠ [] → ∃ e, (IncrSeq (fuel + 1) key s ds).2 key = some e ∧ e.ttl = 30 * Minute ∧
      Unmarshal e.data ⟨0⟩ = .ok ⟨wrap64 ds.sum⟩) := by
  have h0 : (s.round key).reads 0 := Or.inl (Or.inl ⟨by simp [Store.round, habsent], rfl⟩)
  obtain ⟨h1, _, h3⟩ := IncrSeq_from fuel key hkey ds s 0 h0 inInt64_zero hds
  simp only [Int.zero_add] at h1 h3
  refine ⟨h1, ?_, h3⟩
  intro i hi hin
  rw [h1 i hi, wrap64_of_inInt64 hin]

/-- C1, amended, at the key "age" and the deltas 19, 19 of `TestIncrIncrementing`. -/
theorem incr_sum_wrapped_witness :
    ("age" ≠ "" ∧ (fun _ => none : Store) "age" = none ∧
      ∀ d ∈ [(19 : Int), 19], inInt64 d ∧ d ≠ 0) ∧
    ((∀ i, i < [(19 : Int), 19].length →
      ((IncrSeq (0 + 1) "age" (fun _ => none) [19, 19]).1[i]?).map (·.replies) =
        some [⟨200, .value (wrap64 (([(19 : Int), 19].take (i + 1)).sum))⟩]) ∧
    (∀ i, i < [(19 : Int), 19].length → inInt64 (([(19 : Int), 19].take (i + 1)).sum) →
      ((IncrSeq (0 + 1) "age" (fun _ => none) [19, 19]).1[i]?).map (·.replies) =
        some [⟨200, .value (([(19 : Int), 19].take (i + 1)).sum)⟩]) ∧
    ([(19 : Int), 19] ≠ [] → ∃ e, (IncrSeq (0 + 1) "age" (fun _ => none) [19, 19]).2 "age" = some e ∧
      e.ttl = 30 * Minute ∧ Unmarshal e.data ⟨0⟩ = .ok ⟨wrap64 [(19 : Int), 19].sum⟩)) :=
  ⟨by decide, incr_sum_wrapped 0 "age" (fun _ => none) [19, 19] (by decide) rfl (by decide)⟩

/-- C2 as stated fails: the key holds the record with value 9223372036854775807, the
delta is 1 and the commit succeeds; the payload of the one Set decodes to
-9223372036854775808, not to the record with value v+delta. -/
theorem attempt_overflow :
    Unmarshal "\x7b\"value\":9223372036854775807\x7d".toList ⟨0⟩ = .ok ⟨9223372036854775807⟩ ∧
      Watch "age" 1 0 ⟨none, "\x7b\"value\":9223372036854775807\x7d".toList, none, none⟩ =
        ⟨none, -9223372036854775808,
          [.watch "age", .get "age",
            .exec [⟨"age", "\x7b\"value\":-9223372036854775808\x7d".toList, 30 * Minute⟩] none]⟩ ∧
      Unmarshal "\x7b\"value\":-9223372036854775808\x7d".toList ⟨0⟩ = .ok ⟨-9223372036854775808⟩ ∧
      (-9223372036854775808 : Int) ≠ 9223372036854775807 + 1 := by
  decide

/-- C2, amended: for every key, every delta that is a Go int and every round in which
the key is absent (value 0) or holds data that decodes to value v, an attempt whose
WATCH and commit succeed sends exactly one EXEC with exactly one Set of that key, in
the create branch and in the update branch alike; its payload decodes to the record
with value v+delta reduced to the signed 64-bit range by wrap-around (v+delta itself
when that is a Go int), its expiration is 30 minutes, and the value left in `response`
is that stored value. -/
theorem attempt_success_wrapped (key : String) (delta response v : Int) (r : Round)
    (hdelta : inInt64 delta) (hwatch : r.watch = none) (hcommit : r.exec = none)
    (hstate : r.holds v) :
    ∃ payload, Watch key delta response r =
        ⟨none, add64 v delta,
          [.watch key, .get key, .exec [⟨key, payload, 30 * Minute⟩] none]⟩ ∧
      30 * Minute = 1800000000000 ∧
      Unmarshal payload ⟨0⟩ = .ok ⟨add64 v delta⟩ ∧
      add64 v delta = wrap64 (v + delta) ∧
      (inInt64 (v + delta) → add64 v delta = v + delta) :=
  ⟨Marshal ⟨add64 v delta⟩,
    Watch_commit key delta response v r hdelta hwatch hcommit (Or.inl hstate),
    by decide, Unmarshal_Marshal _ (inInt64_wrap64 _) ⟨0⟩, rfl, wrap64_of_inInt64⟩

/-- C2, amended, at the update of the record with value 19 by delta 19. -/
theorem attempt_success_wrapped_witness :
    (inInt64 19 ∧ (Round.mk none "\x7b\"value\":19\x7d".toList none none).watch = none ∧
      (Round.mk none "\x7b\"value\":19\x7d".toList none none).exec = none ∧
      (Round.mk none "\x7b\"value\":19\x7d".toList none none).holds 19) ∧
    ∃ payload, Watch "age" 19 0 ⟨none, "\x7b\"value\":19\x7d".toList, none, none⟩ =
        ⟨none, add64 19 19,
          [.watch "age", .get "age", .exec [⟨"age", payload, 30 * Minute⟩] none]⟩ ∧
      30 * Minute = 1800000000000 ∧
      Unmarshal payload ⟨0⟩ = .ok ⟨add64 19 19⟩ ∧
      add64 19 19 = wrap64 (19 + 19) ∧
      (inInt64 (19 + 19) → add64 19 19 = 19 + 19) :=
  ⟨by decide, attempt_success_wrapped "age" 19 0 19 ⟨none, "\x7b\"value\":19\x7d".toList, none, none⟩
    (by decide) rfl rfl (by decide)⟩

/-- C10 as stated fails: one attempt ends in the conflict outcome, the next reads the
record with value 9223372036854775807 and commits with delta 1; the single answer is
200 with -9223372036854775808, which is not the value read plus delta. -/
theorem retry_overflow :
    Incr (.object (some "age") (some 1))
        [⟨none, "\x7b\"value\":5\x7d".toList, none, some Err.TxFailedErr⟩,
          ⟨none, "\x7b\"value\":9223372036854775807\x7d".toList, none, none⟩] =
      ⟨[⟨200, .value (-9223372036854775808)⟩],
        [.watch "age", .get "age",
          .exec [⟨"age", "\x7b\"value\":6\x7d".toList, 30 * Minute⟩] (some Err.TxFailedErr),
          .watch "age", .get "age",
          .exec [⟨"age", "\x7b\"value\":-9223372036854775808\x7d".toList, 30 * Minute⟩] none]⟩ ∧
      (-9223372036854775808 : Int) ≠ 9223372036854775807 + 1 := by
  decide

/-- C10, amended: for every valid request (non-empty key, delta a Go int other than 0)
and every run of attempts in which k >= 0 attempts end in the conflict outcome and the
next one commits, the handler answers exactly once, with status 200 and the value
written by the committing attempt, which is the value v that attempt started from (0
for an absent or empty key, the decoded value otherwise) plus delta, reduced to the
signed 64-bit range by wrap-around (v+delta itself when that is a Go int); no EXEC of a
discarded attempt was committed, and rounds after the commit are not used. -/
theorem conflicts_invisible_wrapped (key : String) (delta : Int) (conflicts : List Round)
    (last : Round) (rest : List Round)
    (hkey : key ≠ "") (hdelta : inInt64 delta) (hnz : delta ≠ 0)
    (hconflicts : ∀ r ∈ conflicts, (Watch key delta 0 r).err = some Err.TxFailedErr)
    (hcommits : (Watch key delta 0 last).err = none) :
    ∃ v discarded, last.reads v ∧
      Incr (.object (some key) (some delta)) (conflicts ++ last :: rest) =
        ⟨[⟨200, .value (add64 v delta)⟩],
          discarded ++ [.watch key, .get key,
            .exec [⟨key, Marshal ⟨add64 v delta⟩, 30 * Minute⟩] none]⟩ ∧
      (∀ cmds, Traffic.exec cmds none ∉ discarded) ∧
      Unmarshal (Marshal ⟨add64 v delta⟩) ⟨0⟩ = .ok ⟨add64 v delta⟩ ∧
      add64 v delta = wrap64 (v + delta) ∧
      (inInt64 (v + delta) → add64 v delta = v + delta) := by
  obtain ⟨hwatch, hexec, v, hv⟩ := Watch_ok key delta 0 last hcommits
  have hpre : ∀ r ∈ conflicts, (Watch key delta 0 r).err ≠ none := by
    intro r hr
    rw [hconflicts r hr]
    simp
  refine ⟨v, (conflicts.map fun r => (Watch key delta 0 r).traffic).flatten, hv, ?_, ?_,
    Unmarshal_Marshal _ (inInt64_wrap64 _) ⟨0⟩, rfl, wrap64_of_inInt64⟩
  · simp [Incr, bindIncr_valid key delta hkey hdelta hnz, hkey,
      redisLoop_retry key delta v conflicts last rest hdelta hpre hwatch hexec hv 0]
  · intro cmds hmem
    obtain ⟨l, hl, hin⟩ := List.mem_flatten.mp hmem
    obtain ⟨r, hr, rfl⟩ := List.mem_map.mp hl
    exact Watch_err_no_commit key delta 0 r (hpre r hr) cmds hin

/-- C10, amended, at one lost create race followed by a committed update. -/
theorem conflicts_invisible_wrapped_witness :
    ("age" ≠ "" ∧ inInt64 19 ∧ (19 : Int) ≠ 0 ∧
      (∀ r ∈ [Round.mk none [] (some Err.Nil) (some Err.TxFailedErr)],
        (Watch "age" 19 0 r).err = some Err.TxFailedErr) ∧
      (Watch "age" 19 0 (Round.mk none "\x7b\"value\":19\x7d".toList none none)).err = none) ∧
    ∃ v discarded, (Round.mk none "\x7b\"value\":19\x7d".toList none none).reads v ∧
      Incr (.object (some "age") (some 19))
          ([Round.mk none [] (some Err.Nil) (some Err.TxFailedErr)] ++
            Round.mk none "\x7b\"value\":19\x7d".toList none none :: []) =
        ⟨[⟨200, .value (add64 v 19)⟩],
          discarded ++ [.watch "age", .get "age",
            .exec [⟨"age", Marshal ⟨add64 v 19⟩, 30 * Minute⟩] none]⟩ ∧
      (∀ cmds, Traffic.exec cmds none ∉ discarded) ∧
      Unmarshal (Marshal ⟨add64 v 19⟩) ⟨0⟩ = .ok ⟨add64 v 19⟩ ∧
      add64 v 19 = wrap64 (v + 19) ∧
      (inInt64 (v + 19) → add64 v 19 = v + 19) :=
  ⟨by decide, conflicts_invisible_wrapped "age" 19
    [⟨none, [], some Err.Nil, some Err.TxFailedErr⟩]
    ⟨none, "\x7b\"value\":19\x7d".toList, none, none⟩ []
    (by decide) (by decide) (by decide) (by decide) (by decide)⟩

/-- C7 as stated fails: the request with key "age" and delta 0 on a fresh key is
rejected with 422 and nothing is sent to the store. -/
theorem zero_delta_rejected :
    Incr (.object (some "age") (some 0)) [⟨none, [], some Err.Nil, none⟩] =
      ⟨[⟨422, .error "Invalid query"⟩], []⟩ := by
  decide

/-- C7, amended: the handler rejects every request whose delta is 0 with 422 and sends
nothing to the store, so the value of the key is unchanged but no record is rewritten
and no TTL refreshed (field `Value` is bound as required, which excludes the zero
value). It is the attempt itself that treats delta 0 as the claim says: run with delta
0 on a key that is absent (value 0) or decodes to value v, with WATCH and commit
succeeding, it keeps the value v and sends one Set of the record with value v and an
expiration of 30 minutes. -/
theorem zero_delta (key : Option String) (rounds : List Round) (k : String) (response v : Int)
    (r : Round) (hwatch : r.watch = none) (hcommit : r.exec = none) (hstate : r.holds v) :
    Incr (.object key (some 0)) rounds = ⟨[⟨422, .error "Invalid query"⟩], []⟩ ∧
      Watch k 0 response r =
        ⟨none, v, [.watch k, .get k, .exec [⟨k, Marshal ⟨v⟩, 30 * Minute⟩] none]⟩ ∧
      Unmarshal (Marshal ⟨v⟩) ⟨0⟩ = .ok ⟨v⟩ := by
  have hv : inInt64 v := by
    rcases hstate with ⟨_, rfl⟩ | ⟨_, hu⟩
    · exact inInt64_zero
    · exact Unmarshal_inInt64 _ ⟨0⟩ ⟨v⟩ inInt64_zero hu
  have hadd : add64 v 0 = v := by
    unfold add64
    rw [Int.add_zero]
    exact wrap64_of_inInt64 hv
  refine ⟨?_, ?_, Unmarshal_Marshal v hv ⟨0⟩⟩
  · simp [Incr, bindIncr, inInt64_zero]
  · have h := Watch_commit k 0 response v r inInt64_zero hwatch hcommit (Or.inl hstate)
    rw [hadd] at h
    exact h

/-- C7, amended, at the key "age" holding the record with value 19. -/
theorem zero_delta_witness :
    ((Round.mk none "\x7b\"value\":19\x7d".toList none none).watch = none ∧
      (Round.mk none "\x7b\"value\":19\x7d".toList none none).exec = none ∧
      (Round.mk none "\x7b\"value\":19\x7d".toList none none).holds 19) ∧
    (Incr (.object (some "age") (some 0)) [⟨none, "\x7b\"value\":19\x7d".toList, none, none⟩] =
        ⟨[⟨422, .error "Invalid query"⟩], []⟩ ∧
      Watch "age" 0 0 ⟨none, "\x7b\"value\":19\x7d".toList, none, none⟩ =
        ⟨none, 19, [.watch "age", .get "age", .exec [⟨"age", Marshal ⟨19⟩, 30 * Minute⟩] none]⟩ ∧
      Unmarshal (Marshal ⟨19⟩) ⟨0⟩ = .ok ⟨19⟩) :=
  ⟨by decide, zero_delta (some "age") [⟨none, "\x7b\"value\":19\x7d".toList, none, none⟩] "age" 0 19
    ⟨none, "\x7b\"value\":19\x7d".toList, none, none⟩ rfl rfl (by decide)⟩

/-- C8 as stated fails: the body with key "age" and the value 0 has a non-empty key and
a present value, yet the binding refuses it and the handler answers 422. -/
theorem present_zero_value_rejected :
    bindIncr (.object (some "age") (some 0)) = none ∧
      (Incr (.object (some "age") (some 0)) []).replies = [⟨422, .error "Invalid query"⟩] := by
  decide

/-- C8, amended: for every request body whose key is missing or empty, or whose value is
missing or is 0, the handler answers 422 once and sends nothing to the store (no
WATCH, no read, no write); a request with a non-empty key and a present value that is
a Go int other than 0 passes the binding, and the handler never answers it with
anything but 200. -/
theorem incr_validation (key : Option String) (value : Option Int) (k : String) (v : Int)
    (rounds : List Round)
    (hbad : key = none ∨ key = some "" ∨ value = none ∨ value = some 0)
    (hk : k ≠ "") (hv : inInt64 v) (hnz : v ≠ 0) :
    Incr (.object key value) rounds = ⟨[⟨422, .error "Invalid query"⟩], []⟩ ∧
      bindIncr (.object (some k) (some v)) = some ⟨k, v⟩ ∧
      ∀ r ∈ (Incr (.object (some k) (some v)) rounds).replies, r.status = 200 := by
  refine ⟨?_, bindIncr_valid k v hk hv hnz, ?_⟩
  · have hb : bindIncr (.object key value) = none := by
      rcases hbad with rfl | rfl | rfl | rfl <;> simp [bindIncr, inInt64_zero]
    simp [Incr, hb]
  · intro r hr
    simp only [Incr, bindIncr_valid k v hk hv hnz, hk, if_false] at hr
    split at hr
    · simp at hr
    · simp at hr
      rw [hr]

/-- C8, amended, at a body without key and at the body (age, 19). -/
theorem incr_validation_witness :
    (((none : Option String) = none ∨ (none : Option String) = some "" ∨
        some (19 : Int) = none ∨ some (19 : Int) = some 0) ∧
      "age" ≠ "" ∧ inInt64 19 ∧ (19 : Int) ≠ 0) ∧
    (Incr (.object none (some 19)) [⟨none, [], some Err.Nil, none⟩] =
        ⟨[⟨422, .error "Invalid query"⟩], []⟩ ∧
      bindIncr (.object (some "age") (some 19)) = some ⟨"age", 19⟩ ∧
      ∀ r ∈ (Incr (.object (some "age") (some 19)) [⟨none, [], some Err.Nil, none⟩]).replies,
        r.status = 200) :=
  ⟨by decide, incr_validation none (some 19) "age" 19 [⟨none, [], some Err.Nil, none⟩]
    (Or.inl rfl) (by decide) (by decide) (by decide)⟩

/-- C6 as stated fails: the empty string, the text null, the empty object and the
object whose value is null are no well-formed encodings of a record, yet when one of
them is found under a present key the attempt does not fail: it goes on from value 0,
computes the new value 19 and writes it. -/
theorem malformed_values_not_rejected :
    (wellFormedRecord [] = false ∧
      Watch "age" 19 0 ⟨none, [], none, none⟩ =
        ⟨none, 19,
          [.watch "age", .get "age", .exec [⟨"age", "\x7b\"value\":19\x7d".toList, 30 * Minute⟩] none]⟩) ∧
    (wellFormedRecord "null".toList = false ∧
      Watch "age" 19 0 ⟨none, "null".toList, none, none⟩ =
        ⟨none, 19,
          [.watch "age", .get "age", .exec [⟨"age", "\x7b\"value\":19\x7d".toList, 30 * Minute⟩] none]⟩) ∧
    (wellFormedRecord "\x7b\x7d".toList = false ∧
      Watch "age" 19 0 ⟨none, "\x7b\x7d".toList, none, none⟩ =
        ⟨none, 19,
          [.watch "age", .get "age", .exec [⟨"age", "\x7b\"value\":19\x7d".toList, 30 * Minute⟩] none]⟩) ∧
    (wellFormedRecord "\x7b\"value\":null\x7d".toList = false ∧
      Watch "age" 19 0 ⟨none, "\x7b\"value\":null\x7d".toList, none, none⟩ =
        ⟨none, 19,
          [.watch "age", .get "age", .exec [⟨"age", "\x7b\"value\":19\x7d".toList, 30 * Minute⟩] none]⟩) := by
  decide

/-- C6, amended: for every value found under a present key that is not a well-formed
encoding of a counter record, other than the empty byte string and the JSON texts that
carry no value (the text null, and an object whose members named value are absent or
all null), the decode step of the attempt fails with a decode error (a json syntax
error or a json type error), `response` stays as it was (no new value is computed) and
no EXEC is sent (nothing is written). The excepted values are no well-formed
encodings either, but they are not refused: the attempt counts them as value 0 and,
when its commit succeeds, writes the record with value delta. -/
theorem decode_rejects_malformed (key : String) (delta response : Int) (r quiet : Round)
    (hwatch : r.watch = none) (hpresent : r.getErr = none) (hne : r.oldData ≠ [])
    (hmal : wellFormedRecord r.oldData = false) (hsome : carriesNoValue r.oldData = false)
    (hdelta : inInt64 delta) (hwatch0 : quiet.watch = none) (hpresent0 : quiet.getErr = none)
    (hquiet : quiet.oldData = [] ∨ carriesNoValue quiet.oldData = true)
    (hcommit0 : quiet.exec = none) :
    (∃ e, (e = Err.SyntaxError ∨ e = Err.UnmarshalTypeError) ∧
      Unmarshal r.oldData ⟨0⟩ = .error e ∧
      Watch key delta response r = ⟨some e, response, [.watch key, .get key]⟩) ∧
    wellFormedRecord quiet.oldData = false ∧
    Watch key delta response quiet =
      ⟨none, delta, [.watch key, .get key, .exec [⟨key, Marshal ⟨delta⟩, 30 * Minute⟩] none]⟩ := by
  refine ⟨?_, ?_, ?_⟩
  · rcases Unmarshal_refuses r.oldData ⟨0⟩ hmal hsome with hu | hu
    · exact ⟨_, Or.inl rfl, hu, by simp [Watch, watchFn, hwatch, hpresent, hne, hu]⟩
    · exact ⟨_, Or.inr rfl, hu, by simp [Watch, watchFn, hwatch, hpresent, hne, hu]⟩
  · rcases hquiet with h0 | hq
    · rw [h0]; rfl
    · exact (Unmarshal_quiet _ ⟨0⟩ hq).2
  · have hreads : quiet.reads 0 := by
      rcases hquiet with h0 | hq
      · exact Or.inr ⟨hpresent0, h0, rfl⟩
      · exact Or.inl (Or.inr ⟨hpresent0, (Unmarshal_quiet _ ⟨0⟩ hq).1⟩)
    have h := Watch_commit key delta response 0 quiet hdelta hwatch0 hcommit0 hreads
    rw [add64_zero_left hdelta] at h
    exact h

/-- C6, amended, at a stored text whose value is a string, with the object whose value
is null as the excepted text. -/
theorem decode_rejects_malformed_witness :
    ((Round.mk none "\x7b\"value\":\"19\"\x7d".toList none none).watch = none ∧
      (Round.mk none "\x7b\"value\":\"19\"\x7d".toList none none).getErr = none ∧
      (Round.mk none "\x7b\"value\":\"19\"\x7d".toList none none).oldData ≠ [] ∧
      wellFormedRecord (Round.mk none "\x7b\"value\":\"19\"\x7d".toList none none).oldData = false ∧
      carriesNoValue (Round.mk none "\x7b\"value\":\"19\"\x7d".toList none none).oldData = false ∧
      inInt64 19 ∧ (Round.mk none "\x7b\"value\":null\x7d".toList none none).watch = none ∧
      (Round.mk none "\x7b\"value\":null\x7d".toList none none).getErr = none ∧
      ((Round.mk none "\x7b\"value\":null\x7d".toList none none).oldData = [] ∨
        carriesNoValue (Round.mk none "\x7b\"value\":null\x7d".toList none none).oldData = true) ∧
      (Round.mk none "\x7b\"value\":null\x7d".toList none none).exec = none) ∧
    ((∃ e, (e = Err.SyntaxError ∨ e = Err.UnmarshalTypeError) ∧
        Unmarshal (Round.mk none "\x7b\"value\":\"19\"\x7d".toList none none).oldData ⟨0⟩ = .error e ∧
        Watch "age" 19 0 ⟨none, "\x7b\"value\":\"19\"\x7d".toList, none, none⟩ =
          ⟨some e, 0, [.watch "age", .get "age"]⟩) ∧
      wellFormedRecord (Round.mk none "\x7b\"value\":null\x7d".toList none none).oldData = false ∧
      Watch "age" 19 0 ⟨none, "\x7b\"value\":null\x7d".toList, none, none⟩ =
        ⟨none, 19, [.watch "age", .get "age", .exec [⟨"age", Marshal ⟨19⟩, 30 * Minute⟩] none]⟩) :=
  ⟨by decide, decode_rejects_malformed "age" 19 0 ⟨none, "\x7b\"value\":\"19\"\x7d".toList, none, none⟩
    ⟨none, "\x7b\"value\":null\x7d".toList, none, none⟩ rfl rfl (by decide) (by decide) (by decide)
    (by decide) rfl rfl (Or.inr (by decide)) rfl⟩

/-- C4, the code at the failing inputs: with the text `x` stored under "age", or with a
list stored under "age" (GET then answers a WRONGTYPE error), every attempt of the
valid request (age, 19) returns an error that is not the conflict outcome, and the
handler starts the next attempt each time: after any number n of rounds it has sent n
WATCH and n GET and has answered nothing. -/
theorem fatal_error_retried (n : Nat) :
    (Watch "age" 19 0 ⟨none, ['x'], none, none⟩).err = some Err.SyntaxError ∧
      Incr (.object (some "age") (some 19)) (List.replicate n ⟨none, ['x'], none, none⟩) =
        ⟨[], (List.replicate n [Traffic.watch "age", Traffic.get "age"]).flatten⟩ ∧
      (Watch "age" 19 0 ⟨none, [], some (Err.Redis "WRONGTYPE"), none⟩).err =
        some (Err.Redis "WRONGTYPE") ∧
      Incr (.object (some "age") (some 19))
          (List.replicate n ⟨none, [], some (Err.Redis "WRONGTYPE"), none⟩) =
        ⟨[], (List.replicate n [Traffic.watch "age", Traffic.get "age"]).flatten⟩ := by
  have h1 : ∀ r ∈ List.replicate n (Round.mk none ['x'] none none),
      (Watch "age" 19 0 r).err ≠ none := by
    intro r hr
    rw [(List.mem_replicate.mp hr).2]
    decide
  have h2 : ∀ r ∈ List.replicate n (Round.mk none [] (some (Err.Redis "WRONGTYPE")) none),
      (Watch "age" 19 0 r).err ≠ none := by
    intro r hr
    rw [(List.mem_replicate.mp hr).2]
    decide
  refine ⟨by decide, ?_, by decide, ?_⟩
  · simp only [Incr, show bindIncr (.object (some "age") (some 19)) = some ⟨"age", 19⟩ by decide,
      redisLoop_all_fail "age" 19 _ h1 0, List.map_replicate]
    rfl
  · simp only [Incr, show bindIncr (.object (some "age") (some 19)) = some ⟨"age", 19⟩ by decide,
      redisLoop_all_fail "age" 19 _ h2 0, List.map_replicate]
    rfl

/-- C9, the code at the failing input: the name "Я" is one accepted letter, but `len`
counts its two bytes, so with age 21 the handler answers 200 and creates the row; the
one-letter name "A" of `TestUser`, one byte long, is refused as too short. -/
theorem user_one_letter_accepted :
    "Я".length = 1 ∧ matchNamePattern "Я" = true ∧ len "Я" = 2 ∧
      User (.object (some "Я") (some 21)) (some 1) = ⟨[⟨200, .id 1⟩], ["(\"Я\", 21)"]⟩ ∧
      User (.object (some "A") (some 21)) (some 1) = ⟨[⟨422, .error "Name is too short"⟩], []⟩ := by
  decide

/-- C3, no lost update: for every number N of concurrent calls of `Incr` with delta 1 on
one initially absent non-empty key (N within the range of the Go int that counts them)
and every interleaving of their WATCH, GET and EXEC requests at a server that refuses
an EXEC exactly when the key was written since the caller's WATCH, once all calls
have answered the key holds a record that decodes to N (it is absent only if N is 0),
written with a TTL of 30 minutes, and every call has answered 200. -/
theorem no_lost_update (key : String) (s : Store) (N : Nat) (schedule : List Nat)
    (hkey : key ≠ "") (habsent : s key = none) (hN : (N : Int) ≤ maxInt64)
    (hdone : ((World.init s N).run key 1 schedule).allReturned = true) :
    bindIncr (.object (some key) (some 1)) = some ⟨key, 1⟩ ∧
      (((World.init s N).run key 1 schedule).store.round key).holds N ∧
      (0 < N → ∃ e, ((World.init s N).run key 1 schedule).store key = some e ∧
        e.ttl = 30 * Minute ∧ Unmarshal e.data ⟨0⟩ = .ok ⟨N⟩) ∧
      ∀ c ∈ ((World.init s N).run key 1 schedule).callers, ∃ v, c = .returned ⟨200, .value v⟩ := by
  have h1 : inInt64 1 := by decide
  have hin : inInt64 (N : Int) := by
    unfold inInt64 minInt64
    exact ⟨by omega, hN⟩
  obtain ⟨hver, hreads, hpos, hall⟩ :=
    World.run_all_returned key 1 h1 s N schedule habsent hdone
  have hw : wrap64 ((N : Int) * 1) = N := by
    rw [Int.mul_one]
    exact wrap64_of_inInt64 hin
  rw [hw] at hreads hpos
  refine ⟨bindIncr_valid key 1 hkey h1 (by decide), ?_, ?_, hall⟩
  · by_cases h0 : N = 0
    · subst h0
      obtain ⟨⟨_, hstore, _⟩, _⟩ :=
        World.inv_run key 1 h1 schedule _ (World.inv_init key 1 s 0 habsent)
      rw [hver] at hstore
      rcases hstore with ⟨_, hn⟩ | hs
      · left
        simp [Store.round, hn]
      · right
        simp [Store.round, hs]
        exact Unmarshal_Marshal _ (inInt64_wrap64 _) ⟨0⟩
    · right
      have := hpos (by omega)
      simp [Store.round, this, Unmarshal_Marshal _ hin]
  · intro h0
    exact ⟨_, hpos h0, rfl, Unmarshal_Marshal _ hin ⟨0⟩⟩

/-- C3 at two calls on the key "age" that both WATCH and GET before either sends its
EXEC: the first commits, the second is refused, retries and commits. -/
theorem no_lost_update_witness :
    ("age" ≠ "" ∧ (fun _ => none : Store) "age" = none ∧ ((2 : Nat) : Int) ≤ maxInt64 ∧
      ((World.init (fun _ => none) 2).run "age" 1 [0, 1, 0, 1, 0, 1, 1, 1, 1]).allReturned = true) ∧
    (bindIncr (.object (some "age") (some 1)) = some ⟨"age", 1⟩ ∧
      (((World.init (fun _ => none) 2).run "age" 1 [0, 1, 0, 1, 0, 1, 1, 1, 1]).store.round "age").holds
        (2 : Nat) ∧
      (0 < 2 → ∃ e, ((World.init (fun _ => none) 2).run "age" 1 [0, 1, 0, 1, 0, 1, 1, 1, 1]).store "age" =
          some e ∧ e.ttl = 30 * Minute ∧ Unmarshal e.data ⟨0⟩ = .ok ⟨(2 : Nat)⟩) ∧
      ∀ c ∈ ((World.init (fun _ => none) 2).run "age" 1 [0, 1, 0, 1, 0, 1, 1, 1, 1]).callers,
        ∃ v, c = .returned ⟨200, .value v⟩) :=
  ⟨by decide, no_lost_update "age" (fun _ => none) 2 [0, 1, 0, 1, 0, 1, 1, 1, 1]
    (by decide) rfl (by decide) (by decide)⟩

end Console
